import Mathlib

/-!
# AtomEdit: the replication core of `proj.cpp`

A shallow embedding of the document model, the per-line diff, `apply`, the
conflict predicate, the winner order, `merge`, the operation fingerprint and the
peer registry of `src/proj.cpp`, followed by the properties proved about them.

Modelling conventions.

* A `std::string` is a `List Char` (`Str`); a byte is a `Char`.
* A fixed-size `char` field of a record (`oldC[256]`, `newC[256]`, `uid[32]`,
  `qn[64]`) is represented by the string that the program reads back from it
  (`string(o.oldC)`), and every write `strncpy(dst, src, n)` into it is `cstr n src`.
* `int` line and column indices are `Nat`: `diffline` only produces non-negative
  values and a negative index is an out-of-bounds access in `apply`.
  `long long` timestamps and sequence numbers are `Int`.
* Global state read or written by a function (`uid`, `qn`, `seenOps`, `*regP`, the
  master file content) is passed in and returned explicitly.
* The library routine `std::sort` is an argument of `merge`, known only by what the
  standard promises of it (`SortsByKey`): it is not stable, so nothing is assumed about
  the order in which it leaves operations with the same sort key.
-/

namespace AtomEdit

/-- A `std::string`, as its sequence of bytes. -/
abbrev Str := List Char

/-- The terminating byte of a C string. -/
def NUL : Char := Char.ofNat 0

/-- The string read back from a zero-initialised `char` buffer after
`strncpy(buf, src.c_str(), n)`: the bytes of `src` up to its first NUL, at most `n` of them. -/
def cstr (n : Nat) (src : Str) : Str :=
  (src.takeWhile (fun c => c != NUL)).take n

/-- The source's `enum OpType { INS, DEL, REP }`. -/
inductive OpType where
  | INS
  | DEL
  | REP
  deriving DecidableEq, Repr

/-- The source's `struct UpOp`. -/
structure UpOp where
  t : OpType
  ln : Nat
  c0 : Nat
  c1 : Nat
  oldC : Str
  newC : Str
  uid : Str
  ts : Int
  seq : Int
  deriving DecidableEq, Repr

/-! ## Diff -/

/-- The loop `while (s < minl && a[s] == b[s]) s++` of `diffline`; the first argument
bounds the number of iterations. -/
def prefLoop (a b : Str) (minl : Nat) : Nat → Nat → Nat
  | 0, s => s
  | fuel + 1, s =>
    if s < minl ∧ a[s]? = b[s]? then prefLoop a b minl fuel (s + 1) else s

/-- The loop `while (ae >= s && be >= s && a[ae] == b[be]) { ae--; be--; }` of `diffline`.
The state is the pair `(ae + 1, be + 1)`, which is never negative; the first argument
bounds the number of iterations. -/
def sufLoop (a b : Str) (s : Nat) : Nat → Nat × Nat → Nat × Nat
  | 0, p => p
  | fuel + 1, (ae1, be1) =>
    if s < ae1 ∧ s < be1 ∧ a[ae1 - 1]? = b[be1 - 1]? then sufLoop a b s fuel (ae1 - 1, be1 - 1)
    else (ae1, be1)

/-- The value of `s` after the prefix loop of `diffline`. -/
def diffStart (a b : Str) : Nat :=
  prefLoop a b (min a.length b.length) (min a.length b.length) 0

/-- The values of `(ae + 1, be + 1)` after the suffix loop of `diffline`. -/
def diffEnds (a b : Str) : Nat × Nat :=
  sufLoop a b (diffStart a b) a.length (a.length, b.length)

/-- The local `ao` of `diffline`: `(s <= ae) ? a.substr(s, ae - s + 1) : ""`. -/
def oldSeg (a b : Str) : Str :=
  if diffStart a b < (diffEnds a b).1 then
    (a.drop (diffStart a b)).take ((diffEnds a b).1 - diffStart a b)
  else []

/-- The local `bn` of `diffline`: `(s <= be) ? b.substr(s, be - s + 1) : ""`. -/
def newSeg (a b : Str) : Str :=
  if diffStart a b < (diffEnds a b).2 then
    (b.drop (diffStart a b)).take ((diffEnds a b).2 - diffStart a b)
  else []

/-- The source's `diffline`. The global `uid`, the clock reading and the value fetched
from `localSeq` are the first three arguments. -/
def diffline (uid : Str) (ts seq : Int) (ln : Nat) (a b : Str) : UpOp :=
  { t := if (oldSeg a b).isEmpty then OpType.INS
         else if (newSeg a b).isEmpty then OpType.DEL else OpType.REP
    ln := ln
    c0 := diffStart a b
    c1 := (diffEnds a b).2
    oldC := cstr 255 (oldSeg a b)
    newC := cstr 255 (newSeg a b)
    uid := cstr 31 uid
    ts := ts
    seq := seq }

/-- The loop of the source's `diff` from index `i`, with `fuel` iterations left. `clock k`
is the clock reading taken by the call of `diffline` that fetches sequence number `k`. -/
def diffLoop (uid : Str) (clock : Int → Int) (a b : List Str) : Nat → Nat → Int → List UpOp
  | 0, _, _ => []
  | fuel + 1, i, seq =>
    let x := if i < a.length then a.getD i [] else []
    let y := if i < b.length then b.getD i [] else []
    if x ≠ y then diffline uid (clock seq) seq i x y :: diffLoop uid clock a b fuel (i + 1) (seq + 1)
    else diffLoop uid clock a b fuel (i + 1) seq

/-- The source's `diff`: one operation per index `i < max(|a|, |b|)` at which the lines
differ. `seq0` is the value of `localSeq` on entry. -/
def diff (uid : Str) (clock : Int → Int) (seq0 : Int) (a b : List Str) : List UpOp :=
  diffLoop uid clock a b (max a.length b.length) 0 seq0

/-! ## Apply -/

/-- The loop `while ((int)c.size() <= l) c.push_back("")` of `apply`. -/
def extend (c : List Str) (l : Nat) : List Str :=
  c ++ List.replicate (l + 1 - c.length) []

/-- The `switch` of the source's `apply`, acting on the line `ln = c[l]`. -/
def applyLine (o : UpOp) (ln : Str) : Str :=
  match o.t with
  | OpType.INS =>
    let s := if o.c0 > ln.length then ln.length else o.c0
    let n := o.newC
    if ¬ (s + n.length < ln.length ∧ (ln.drop s).take n.length = n) then
      ln.take s ++ n ++ ln.drop s
    else ln
  | OpType.DEL =>
    let s := o.c0
    if s < ln.length then
      let exp := o.oldC
      if s + exp.length ≤ ln.length ∧ (ln.drop s).take exp.length = exp then
        ln.take s ++ ln.drop (s + exp.length)
      else ln
    else ln
  | OpType.REP =>
    let a := o.oldC
    let n := o.newC
    let s := if o.c0 > ln.length then ln.length else o.c0
    if a.length > 0 ∧ s + a.length ≤ ln.length ∧ (ln.drop s).take a.length = a then
      ln.take s ++ n ++ ln.drop (s + a.length)
    else if ¬ (s + n.length < ln.length ∧ (ln.drop s).take n.length = n) then
      ln.take s ++ n ++ ln.drop s
    else ln

/-- The source's `apply`: the document after applying `o`. -/
def apply (c : List Str) (o : UpOp) : List Str :=
  (extend c o.ln).set o.ln (applyLine o ((extend c o.ln).getD o.ln []))

/-- A line segment that a 255-byte record field (`oldC`, `newC`) carries unchanged: at most
255 bytes, none of them NUL. -/
def fits (x : Str) : Prop := x.length ≤ 255 ∧ NUL ∉ x

instance fitsDecidable (x : Str) : Decidable (fits x) := by
  unfold fits
  infer_instance

/-! ## Conflict predicate and winner order -/

/-- The comparison `operator<` of `std::string`: lexicographic on bytes, a proper prefix
being smaller. -/
def strLt : Str → Str → Bool
  | [], [] => false
  | [], _ :: _ => true
  | _ :: _, [] => false
  | x :: xs, y :: ys => if x < y then true else if y < x then false else strLt xs ys

/-- The source's `conf`. -/
def conf (a b : UpOp) : Bool :=
  if a.ln ≠ b.ln then false
  else !(decide (a.c1 ≤ b.c0) || decide (b.c1 ≤ a.c0))

/-- The source's `win`. -/
def win (a b : UpOp) : Bool :=
  if a.ts ≠ b.ts then decide (a.ts > b.ts)
  else if a.seq ≠ b.seq then decide (a.seq > b.seq)
  else strLt a.uid b.uid

/-! ## Fingerprint -/

/-- The text that `operator<<` writes for an integer: decimal digits, with a leading `-`
for a negative value. -/
def showInt (n : Int) : Str :=
  if n < 0 then '-' :: Nat.toDigits 10 n.natAbs else Nat.toDigits 10 n.toNat

/-- The number that a string of decimal digits denotes. -/
def digitsVal (xs : Str) : Nat := xs.foldl (fun acc c => 10 * acc + (c.toNat - 48)) 0

/-- The value `(int)o.t` of an operation kind. -/
def OpType.code : OpType → Int
  | OpType.INS => 0
  | OpType.DEL => 1
  | OpType.REP => 2

/-- The source's `opid`. -/
def opid (o : UpOp) : Str :=
  o.uid ++ ['|'] ++ showInt o.seq ++ ['|'] ++ showInt o.ts ++ ['|'] ++ showInt o.t.code ++ ['|']
    ++ showInt o.ln ++ ['|'] ++ showInt o.c0 ++ ['|'] ++ showInt o.c1 ++ ['|'] ++ o.oldC
    ++ ['|'] ++ o.newC

/-- A REPLACE of "a|b" by "c". -/
def barInOld : UpOp :=
  { t := OpType.REP, ln := 0, c0 := 0, c1 := 3, oldC := "a|b".toList, newC := "c".toList,
    uid := "alice".toList, ts := 200, seq := 1 }

/-- A REPLACE of "a" by "b|c", stamped like `barInOld`. -/
def barInNew : UpOp :=
  { t := OpType.REP, ln := 0, c0 := 0, c1 := 3, oldC := "a".toList, newC := "b|c".toList,
    uid := "alice".toList, ts := 200, seq := 1 }

/-! ## Merge -/

/-- The comparator given to `std::sort` in `merge`. -/
def sortLt (a b : UpOp) : Bool :=
  if a.ts ≠ b.ts then decide (a.ts < b.ts)
  else if a.seq ≠ b.seq then decide (a.seq < b.seq)
  else strLt a.uid b.uid

/-- The relation "`b` is not ordered before `a` by the comparator": `a` may precede `b` in
a sorted vector. -/
def keyLe (a b : UpOp) : Prop := sortLt b a = false

instance keyLeDecidable : DecidableRel keyLe := fun a b => by
  unfold keyLe
  infer_instance

/-- What the C++ standard promises of `std::sort(v.begin(), v.end(), cmp)`, the library
routine that `merge` calls: the vector afterwards is a rearrangement of the vector before in
which no operation is ordered by the comparator before an earlier one. The order in which
it leaves operations that the comparator does not separate is not fixed (`std::sort` is not
stable), so `merge` takes the routine as a parameter and the properties of `merge` are
proved for every routine that keeps this promise. -/
def SortsByKey (sort : List UpOp → List UpOp) : Prop :=
  ∀ v : List UpOp, (sort v).Perm v ∧ List.Sorted keyLe (sort v)

/-- One sorting routine that keeps the promise `SortsByKey`: the insertion sort, which
leaves operations that the comparator does not separate in their input order. On a vector
of two operations this is what `std::sort` does. -/
def sortOps (v : List UpOp) : List UpOp := List.insertionSort keyLe v

/-- Another sorting routine that keeps the promise `SortsByKey`, and is not stable: it
leaves operations that the comparator does not separate in the reverse of their input
order. -/
def sortOpsRev (v : List UpOp) : List UpOp := sortOps v.reverse

/-- The inner loop of the winner filter of `merge`: the value of `ok` for `v[i] = vi` after
`j` has run over the rest of the vector, starting at index `j`. -/
def okLoop (i : Nat) (vi : UpOp) : Nat → List UpOp → Bool
  | _, [] => true
  | j, vj :: rest =>
    if i = j then okLoop i vi (j + 1) rest
    else if conf vi vj && !win vi vj then false
    else okLoop i vi (j + 1) rest

/-- The outer loop of the winner filter of `merge`, from index `i`. -/
def winnersFrom (v : List UpOp) : Nat → List UpOp → List UpOp
  | _, [] => []
  | i, vi :: rest =>
    if okLoop i vi 0 v then vi :: winnersFrom v (i + 1) rest else winnersFrom v (i + 1) rest

/-- The vector `w` of `merge`. -/
def winners (v : List UpOp) : List UpOp := winnersFrom v 0 v

/-- One iteration of the last loop of `merge`, on the state (document `d`, `seenOps`). -/
def mergeStep (st : List Str × Finset Str) (o : UpOp) : List Str × Finset Str :=
  if opid o ∈ st.2 then st else (apply st.1 o, insert (opid o) st.2)

/-- The source's `merge`. The library routine `std::sort` (with the comparator `sortLt`
fixed) is the first argument, the content of the master file and `seenOps` on entry are the
last two; the result is the returned document and `seenOps` on exit. The vector `v` itself
is left sorted, as `sort v`. -/
def merge (sort : List UpOp → List UpOp) (v : List UpOp) (master : List Str)
    (seen : Finset Str) : List Str × Finset Str :=
  (winners (sort v)).foldl mergeStep (master, seen)

/-- The operation `v`, at index `i` of the batch `V`, beats every operation at another
index of `V` that conflicts with it. -/
def beatsOthers (V : List UpOp) (i : Nat) (v : UpOp) : Prop :=
  ∀ j : Fin V.length, j.val ≠ i → conf v (V.get j) = true → win v (V.get j) = true

instance beatsOthersDecidable (V : List UpOp) (i : Nat) (v : UpOp) :
    Decidable (beatsOthers V i v) := by
  unfold beatsOthers
  infer_instance

/-- The winner set of §4.6 step 3, in the order of `V`: the operations of `V` that beat
every other operation of `V` conflicting with them. -/
def winnerSet (V : List UpOp) : List UpOp :=
  (V.enum.filter (fun p => decide (beatsOthers V p.1 p.2))).map Prod.snd

/-- The operations of a list whose fingerprint no earlier operation of the list has. -/
def firstOfFingerprint : List UpOp → List UpOp
  | [] => []
  | o :: os => o :: (firstOfFingerprint os).filter (fun u => decide (opid u ≠ opid o))

/-- The operation `v` beats every other operation of the batch `V` that conflicts with it,
the other operations of `V` being `V` without one occurrence of `v`. -/
def beatsRest (V : List UpOp) (v : UpOp) : Prop :=
  ∀ u ∈ V.erase v, conf v u = true → win v u = true

instance beatsRestDecidable (V : List UpOp) (v : UpOp) : Decidable (beatsRest V v) := by
  unfold beatsRest
  infer_instance

/-- The operations that a merge round applies to the sorted batch `sv`, in application
order: the winners of the batch, in the order of `sv`, whose fingerprint is neither in the
seen set nor the fingerprint of an earlier one of them. -/
def appliedOps (sv : List UpOp) (S : Finset Str) : List UpOp :=
  firstOfFingerprint ((winnerSet sv).filter (fun o => decide (opid o ∉ S)))

/-- An insertion of "X" at column 0 of line 0. -/
def insX : UpOp :=
  { t := OpType.INS, ln := 0, c0 := 0, c1 := 1, oldC := [], newC := "X".toList,
    uid := "alice".toList, ts := 200, seq := 1 }

/-- An insertion of "Y" at column 1 of line 0, stamped like `insX`. -/
def insY : UpOp :=
  { t := OpType.INS, ln := 0, c0 := 1, c1 := 2, oldC := [], newC := "Y".toList,
    uid := "alice".toList, ts := 200, seq := 1 }

/-- The deletion that `diff` derives from the lines "aab" and "ab": delete "a" at column 1,
with the empty column range [1, 1). -/
def delA : UpOp :=
  { t := OpType.DEL, ln := 0, c0 := 1, c1 := 1, oldC := "a".toList, newC := [],
    uid := "alice".toList, ts := 200, seq := 1 }

/-! ## Registry -/

/-- The source's `MaxUsers`. -/
def MaxUsers : Nat := 5

/-- The source's `struct UserReg`. -/
structure UserReg where
  uid : Str
  qn : Str
  active : Bool
  deriving DecidableEq, Repr

/-- The source's `struct ShReg`; the array `u[MaxUsers]` is a list of `MaxUsers` slots and a
loop over `i < MaxUsers` is a recursion over it. -/
structure ShReg where
  cnt : Int
  globalOpCount : Int
  u : List UserReg
  deriving DecidableEq, Repr

/-- The registry after `initshm` found no active slot: zeroed and default-constructed. -/
def emptyReg : ShReg :=
  { cnt := 0, globalOpCount := 0, u := List.replicate MaxUsers { uid := [], qn := [], active := false } }

/-- The first loop of `regUser`: the slots after a reconnect, if some active slot holds `uid`. -/
def reconnect (uid qn : Str) : List UserReg → Option (List UserReg)
  | [] => none
  | r :: rs =>
    if r.active = true ∧ r.uid = uid then some ({ r with qn := cstr 63 qn } :: rs)
    else (reconnect uid qn rs).map (fun rs1 => r :: rs1)

/-- The second loop of `regUser`: the slots after the first inactive slot is claimed, if
there is one. -/
def claim (uid qn : Str) : List UserReg → Option (List UserReg)
  | [] => none
  | r :: rs =>
    if r.active = false then some ({ uid := cstr 31 uid, qn := cstr 63 qn, active := true } :: rs)
    else (claim uid qn rs).map (fun rs1 => r :: rs1)

/-- The source's `regUser`, for the peer name `uid` and mailbox name `qn`: the returned
flag and the registry afterwards. -/
def regUser (reg : ShReg) (uid qn : Str) : Bool × ShReg :=
  match reconnect uid qn reg.u with
  | some u1 => (true, { reg with u := u1 })
  | none =>
    if reg.cnt ≥ MaxUsers then (false, reg)
    else
      match claim uid qn reg.u with
      | some u1 => (true, { reg with u := u1, cnt := reg.cnt + 1 })
      | none => (false, reg)

/-- The loop of `clean`: the slots after the first active slot holding `uid` is released,
if there is one. -/
def release (uid : Str) : List UserReg → Option (List UserReg)
  | [] => none
  | r :: rs =>
    if r.active = true ∧ r.uid = uid then some ({ r with active := false } :: rs)
    else (release uid rs).map (fun rs1 => r :: rs1)

/-- The registry part of the source's `clean`, for the peer name `uid`. -/
def clean (reg : ShReg) (uid : Str) : ShReg :=
  match release uid reg.u with
  | some u1 => { reg with u := u1, cnt := reg.cnt - 1 }
  | none => reg

/-- The loop of `activeUsers`: the names held by the active slots, in slot order. -/
def activeNames (rs : List UserReg) : List Str :=
  (rs.filter (fun r => r.active)).map (fun r => r.uid)

/-- The source's `activeUsers`. -/
def activeUsers (reg : ShReg) : List Str := activeNames reg.u

/-- The loop of `lead` on the state `(b, f)`. -/
def leadLoop : List UserReg → Str × Bool → Str × Bool
  | [], st => st
  | r :: rs, (b, f) =>
    if r.active = true then
      if f = false ∨ strLt r.uid b = true then leadLoop rs (r.uid, true) else leadLoop rs (b, f)
    else leadLoop rs (b, f)

/-- The source's `lead`, for the peer name `uid`. -/
def lead (reg : ShReg) (uid : Str) : Bool :=
  (leadLoop reg.u ([], false)).2 && decide ((leadLoop reg.u ([], false)).1 = uid)

/-- The registry states reached from the empty registry by calls of `regUser` with a name
satisfying `P` and calls of `clean`. -/
inductive ReachableBy (P : Str → Prop) : ShReg → Prop where
  | init : ReachableBy P emptyReg
  | join (reg : ShReg) (uid qn : Str) : ReachableBy P reg → P uid →
      ReachableBy P (regUser reg uid qn).2
  | leave (reg : ShReg) (uid : Str) : ReachableBy P reg → ReachableBy P (clean reg uid)

/-- A peer name that a registry slot stores unchanged: at most `MaxUNameLen - 1 = 31`
bytes, none of them NUL. -/
def nameFits (uid : Str) : Prop := uid.length ≤ 31 ∧ NUL ∉ uid

instance nameFitsDecidable (uid : Str) : Decidable (nameFits uid) := by
  unfold nameFits
  infer_instance

/-- The name and the active flag of every slot, in slot order: what a reconnect leaves
unchanged. -/
def slotKeys (rs : List UserReg) : List (Str × Bool) := rs.map (fun r => (r.uid, r.active))

/-- A peer name of 32 bytes, one more than a slot stores. -/
def longName : Str := List.replicate 32 'a'

/-- The registry after the peers of `joins`, each a peer name with its mailbox name, have
called `regUser` one after the other. -/
def joinAll (reg : ShReg) (joins : List (Str × Str)) : ShReg :=
  joins.foldl (fun r p => (regUser r p.1 p.2).2) reg

/-- Five peers with distinct names, the second name being the first 31 bytes of the
first. -/
def fiveJoins : List (Str × Str) :=
  [(longName, "/queue_a".toList), (List.replicate 31 'a', "/queue_a".toList),
   ("b".toList, "/queue_b".toList), ("c".toList, "/queue_c".toList),
   ("d".toList, "/queue_d".toList)]

/-- The number of slots whose active flag is set. -/
def activeCount (reg : ShReg) : Nat := (reg.u.filter (fun r => r.active)).length


/-! # Properties

## The per-line diff -/

theorem prefLoop_spec (a b : Str) (minl : Nat) :
    ∀ (fuel s : Nat), s ≤ minl →
      s ≤ prefLoop a b minl fuel s ∧ prefLoop a b minl fuel s ≤ minl ∧
      ((∀ i, i < s → a[i]? = b[i]?) → ∀ i, i < prefLoop a b minl fuel s → a[i]? = b[i]?) ∧
      (minl - s ≤ fuel →
        ¬ (prefLoop a b minl fuel s < minl ∧ a[prefLoop a b minl fuel s]? = b[prefLoop a b minl fuel s]?)) := by
  intro fuel
  induction fuel with
  | zero =>
    intro s hs
    simp only [prefLoop]
    refine ⟨le_refl _, hs, fun h => h, ?_⟩
    intro hf h
    omega
  | succ f ih =>
    intro s hs
    simp only [prefLoop]
    split
    · rename_i hc
      obtain ⟨h1, h2, h3, h4⟩ := ih (s + 1) (by omega)
      refine ⟨by omega, h2, ?_, fun hf => h4 (by omega)⟩
      intro hpre
      apply h3
      intro i hi
      rcases Nat.lt_succ_iff_lt_or_eq.mp hi with h | h
      · exact hpre i h
      · subst h; exact hc.2
    · rename_i hc
      exact ⟨le_refl _, hs, fun h => h, fun _ => hc⟩

theorem diffStart_le (a b : Str) : diffStart a b ≤ a.length ∧ diffStart a b ≤ b.length := by
  have h := (prefLoop_spec a b (min a.length b.length) (min a.length b.length) 0 (Nat.zero_le _)).2.1
  unfold diffStart
  omega

theorem diffStart_take (a b : Str) : a.take (diffStart a b) = b.take (diffStart a b) := by
  have h := (prefLoop_spec a b (min a.length b.length) (min a.length b.length) 0 (Nat.zero_le _)).2.2.1
    (fun i hi => absurd hi (Nat.not_lt_zero i))
  apply List.ext_getElem?
  intro i
  by_cases hi : i < diffStart a b
  · simp only [List.getElem?_take, hi, if_true]
    exact h i hi
  · simp [List.getElem?_take, hi]

theorem diffStart_stop (a b : Str) (h1 : diffStart a b < a.length) (h2 : diffStart a b < b.length) :
    a[diffStart a b]? ≠ b[diffStart a b]? := by
  have h := (prefLoop_spec a b (min a.length b.length) (min a.length b.length) 0 (Nat.zero_le _)).2.2.2
    (by omega)
  intro he
  apply h
  refine ⟨?_, he⟩
  unfold diffStart at h1 h2
  omega

theorem sufLoop_spec (a b : Str) (s : Nat) :
    ∀ (fuel : Nat) (p : Nat × Nat), s ≤ p.1 → s ≤ p.2 → p.1 ≤ a.length → p.2 ≤ b.length →
      a.drop p.1 = b.drop p.2 →
      s ≤ (sufLoop a b s fuel p).1 ∧ s ≤ (sufLoop a b s fuel p).2 ∧
      (sufLoop a b s fuel p).1 ≤ a.length ∧ (sufLoop a b s fuel p).2 ≤ b.length ∧
      a.drop (sufLoop a b s fuel p).1 = b.drop (sufLoop a b s fuel p).2 := by
  intro fuel
  induction fuel with
  | zero =>
    intro p h1 h2 h3 h4 h5
    exact ⟨h1, h2, h3, h4, h5⟩
  | succ f ih =>
    rintro ⟨ae1, be1⟩ h1 h2 h3 h4 h5
    simp only [sufLoop]
    split
    · rename_i hc
      obtain ⟨hc1, hc2, hc3⟩ := hc
      simp only at h1 h2 h3 h4 h5
      apply ih (ae1 - 1, be1 - 1) <;> simp only
      · omega
      · omega
      · omega
      · omega
      · have ha : ae1 - 1 < a.length := by omega
        have hb : be1 - 1 < b.length := by omega
        rw [List.drop_eq_getElem_cons ha, List.drop_eq_getElem_cons hb]
        rw [List.getElem?_eq_getElem ha, List.getElem?_eq_getElem hb] at hc3
        have e1 : ae1 - 1 + 1 = ae1 := by omega
        have e2 : be1 - 1 + 1 = be1 := by omega
        rw [e1, e2, h5]
        simp only [Option.some.injEq] at hc3
        rw [hc3]
    · exact ⟨h1, h2, h3, h4, h5⟩

theorem diffEnds_spec (a b : Str) :
    diffStart a b ≤ (diffEnds a b).1 ∧ diffStart a b ≤ (diffEnds a b).2 ∧
    (diffEnds a b).1 ≤ a.length ∧ (diffEnds a b).2 ≤ b.length ∧
    a.drop (diffEnds a b).1 = b.drop (diffEnds a b).2 := by
  have h := diffStart_le a b
  unfold diffEnds
  apply sufLoop_spec a b (diffStart a b) a.length (a.length, b.length) h.1 h.2 (le_refl _) (le_refl _)
  simp

theorem sufLoop_stop (a b : Str) (s : Nat) :
    ∀ (fuel : Nat) (p : Nat × Nat), p.1 ≤ fuel →
      ¬ (s < (sufLoop a b s fuel p).1 ∧ s < (sufLoop a b s fuel p).2 ∧
        a[(sufLoop a b s fuel p).1 - 1]? = b[(sufLoop a b s fuel p).2 - 1]?) := by
  intro fuel
  induction fuel with
  | zero =>
    intro p hp h
    simp only [sufLoop] at h
    omega
  | succ f ih =>
    rintro ⟨ae1, be1⟩ hp
    simp only [sufLoop]
    split
    · rename_i hc
      exact ih (ae1 - 1, be1 - 1) (by simp only at hp ⊢; omega)
    · rename_i hc
      exact hc

/-- The suffix loop of `diffline` ends because its condition fails, not for lack of
iterations. -/
theorem diffEnds_stop (a b : Str) :
    ¬ (diffStart a b < (diffEnds a b).1 ∧ diffStart a b < (diffEnds a b).2 ∧
      a[(diffEnds a b).1 - 1]? = b[(diffEnds a b).2 - 1]?) :=
  sufLoop_stop a b (diffStart a b) a.length (a.length, b.length) (le_refl _)

theorem oldSeg_eq (a b : Str) :
    oldSeg a b = (a.drop (diffStart a b)).take ((diffEnds a b).1 - diffStart a b) := by
  unfold oldSeg
  split
  · rfl
  · rename_i h
    have : (diffEnds a b).1 - diffStart a b = 0 := by omega
    simp [this]

theorem newSeg_eq (a b : Str) :
    newSeg a b = (b.drop (diffStart a b)).take ((diffEnds a b).2 - diffStart a b) := by
  unfold newSeg
  split
  · rfl
  · rename_i h
    have : (diffEnds a b).2 - diffStart a b = 0 := by omega
    simp [this]

theorem oldSeg_length (a b : Str) : (oldSeg a b).length = (diffEnds a b).1 - diffStart a b := by
  have h := diffEnds_spec a b
  rw [oldSeg_eq, List.length_take, List.length_drop]
  omega

theorem newSeg_length (a b : Str) : (newSeg a b).length = (diffEnds a b).2 - diffStart a b := by
  have h := diffEnds_spec a b
  rw [newSeg_eq, List.length_take, List.length_drop]
  omega

/-- The old line is the common prefix, the old segment and the common suffix. -/
theorem old_decomp (a b : Str) :
    a = a.take (diffStart a b) ++ oldSeg a b ++ a.drop (diffEnds a b).1 := by
  have h := diffEnds_spec a b
  have e : a.drop (diffEnds a b).1 = (a.drop (diffStart a b)).drop ((diffEnds a b).1 - diffStart a b) := by
    rw [List.drop_drop]
    congr 1
    omega
  rw [oldSeg_eq, e, List.append_assoc, List.take_append_drop, List.take_append_drop]

/-- The new line is the same common prefix, the new segment and the same common suffix. -/
theorem new_decomp (a b : Str) :
    b = a.take (diffStart a b) ++ newSeg a b ++ a.drop (diffEnds a b).1 := by
  have h := diffEnds_spec a b
  have e : b.drop (diffEnds a b).2 = (b.drop (diffStart a b)).drop ((diffEnds a b).2 - diffStart a b) := by
    rw [List.drop_drop]
    congr 1
    omega
  rw [diffStart_take a b, h.2.2.2.2, newSeg_eq, e, List.append_assoc, List.take_append_drop,
    List.take_append_drop]

/-! ## Applying a diff-derived operation -/

theorem cstr_eq_self (n : Nat) (x : Str) (hl : x.length ≤ n) (hz : NUL ∉ x) : cstr n x = x := by
  unfold cstr
  have h : x.takeWhile (fun c => c != NUL) = x := by
    rw [List.takeWhile_eq_self_iff]
    intro c hc
    simp only [bne_iff_ne, ne_eq]
    intro h
    exact hz (h ▸ hc)
  rw [h]
  exact List.take_of_length_le hl

theorem applyLine_core (o : UpOp) (p ao bn suf : Str)
    (hc0 : o.c0 = p.length) (hold : o.oldC = ao) (hnew : o.newC = bn)
    (ht : o.t = if ao.isEmpty then OpType.INS else if bn.isEmpty then OpType.DEL else OpType.REP)
    (hstop : ao = [] → bn ≠ [] → suf.take bn.length ≠ bn) :
    applyLine o (p ++ ao ++ suf) = p ++ bn ++ suf := by
  unfold applyLine
  by_cases hao : ao = []
  · subst hao
    simp only [List.isEmpty_nil, if_true] at ht
    rw [ht]
    simp only [hc0, hnew, List.append_nil, List.length_append]
    have hs : (if p.length > p.length + suf.length then p.length + suf.length else p.length)
        = p.length := by
      split
      · omega
      · rfl
    rw [hs]
    simp only [List.drop_left, List.take_left]
    by_cases hbn : bn = []
    · subst hbn
      simp
    · have := hstop rfl hbn
      simp [this]
  · have hao' : ao.isEmpty = false := by
      cases ao with
      | nil => exact absurd rfl hao
      | cons x xs => rfl
    have hlen : 0 < ao.length := List.length_pos.mpr hao
    by_cases hbn : bn = []
    · subst hbn
      simp only [hao', List.isEmpty_nil, if_true] at ht
      simp only [Bool.false_eq_true, if_false] at ht
      rw [ht]
      simp only [hc0, hold, List.length_append, List.append_nil]
      have e1 : p.length < p.length + ao.length + suf.length := by omega
      have e2 : (List.drop p.length (p ++ ao ++ suf)).take ao.length = ao := by
        rw [List.append_assoc, List.drop_left, List.take_left]
      have e3 : p.length + ao.length ≤ p.length + ao.length + suf.length := by omega
      simp only [e1, e2, e3, if_true, and_self]
      rw [List.append_assoc, List.take_left]
      have e4 : List.drop (p.length + ao.length) (p ++ (ao ++ suf)) = suf := by
        rw [← List.append_assoc, ← List.length_append, List.drop_left]
      rw [e4]
    · have hbn' : bn.isEmpty = false := by
        cases bn with
        | nil => exact absurd rfl hbn
        | cons x xs => rfl
      simp only [hao', hbn', Bool.false_eq_true, if_false] at ht
      rw [ht]
      simp only [hc0, hold, hnew, List.length_append]
      have hs : (if p.length > p.length + ao.length + suf.length then
          p.length + ao.length + suf.length else p.length) = p.length := by
        split
        · omega
        · rfl
      rw [hs]
      have e2 : (List.drop p.length (p ++ ao ++ suf)).take ao.length = ao := by
        rw [List.append_assoc, List.drop_left, List.take_left]
      have e3 : p.length + ao.length ≤ p.length + ao.length + suf.length := by omega
      have e5 : ao.length > 0 := hlen
      simp only [e2, e3, e5, if_true, and_self]
      have e4 : List.drop (p.length + ao.length) (p ++ ao ++ suf) = suf := by
        rw [← List.length_append, List.drop_left]
      have e6 : List.take p.length (p ++ ao ++ suf) = p := by
        rw [List.append_assoc, List.take_left]
      rw [e4, e6, List.append_assoc]

theorem applyLine_diffline (uid : Str) (ts seq : Int) (ln : Nat) (a b : Str)
    (hold : fits (oldSeg a b)) (hnew : fits (newSeg a b)) :
    applyLine (diffline uid ts seq ln a b) a = b := by
  have ha := old_decomp a b
  have hb := new_decomp a b
  have hle := diffStart_le a b
  have hsp := diffEnds_spec a b
  have key := applyLine_core (diffline uid ts seq ln a b) (a.take (diffStart a b)) (oldSeg a b)
    (newSeg a b) (a.drop (diffEnds a b).1)
    (by simp only [diffline, List.length_take]; omega)
    (cstr_eq_self 255 _ hold.1 hold.2) (cstr_eq_self 255 _ hnew.1 hnew.2) rfl ?_
  · rw [← ha, ← hb] at key
    exact key
  · intro hao hbn htk
    have hol := oldSeg_length a b
    have hnl := newSeg_length a b
    rw [hao] at hol
    simp only [List.length_nil] at hol
    have hnpos : 0 < (newSeg a b).length := List.length_pos.mpr hbn
    have e1 : (diffEnds a b).1 = diffStart a b := by omega
    rw [e1] at htk
    have hsuf : a.drop (diffStart a b) ≠ [] := by
      intro h
      rw [h] at htk
      simp only [List.take_nil] at htk
      exact hbn htk.symm
    have h1 : diffStart a b < a.length := by
      by_contra hc
      exact hsuf (List.drop_eq_nil_of_le (by omega))
    have h2 : diffStart a b < b.length := by omega
    apply diffStart_stop a b h1 h2
    have e2 : b[diffStart a b]? = (newSeg a b)[0]? := by
      rw [newSeg_eq, List.getElem?_take, if_pos (by omega), List.getElem?_drop]
      rfl
    have e3 : (newSeg a b)[0]? = a[diffStart a b]? := by
      conv_lhs => rw [← htk]
      rw [List.getElem?_take, if_pos hnpos, List.getElem?_drop]
      rfl
    rw [e2, e3]

theorem mem_diffLoop (uid : Str) (clock : Int → Int) (a b : List Str) (o : UpOp) :
    ∀ (fuel i : Nat) (seq : Int), o ∈ diffLoop uid clock a b fuel i seq →
      ∃ (j : Nat) (k : Int), a.getD j [] ≠ b.getD j [] ∧
        o = diffline uid (clock k) k j (a.getD j []) (b.getD j []) := by
  intro fuel
  induction fuel with
  | zero => intro i seq h; simp [diffLoop] at h
  | succ f ih =>
    intro i seq h
    have ex : (if i < a.length then a.getD i [] else []) = a.getD i [] := by
      split
      · rfl
      · rw [List.getD_eq_default]; omega
    have ey : (if i < b.length then b.getD i [] else []) = b.getD i [] := by
      split
      · rfl
      · rw [List.getD_eq_default]; omega
    simp only [diffLoop, ex, ey] at h
    split at h
    · rename_i hne
      rcases List.mem_cons.mp h with h | h
      · exact ⟨i, seq, hne, h⟩
      · exact ih _ _ h
    · exact ih _ _ h

theorem extend_getD (c : List Str) (l i : Nat) : (extend c l).getD i [] = c.getD i [] := by
  unfold extend
  simp only [List.getD_eq_getElem?_getD, List.getElem?_append, List.getElem?_replicate]
  split
  · rfl
  · split
    · rw [List.getElem?_eq_none (by omega)]; rfl
    · rw [List.getElem?_eq_none (by omega)]

theorem extend_length_gt (c : List Str) (l : Nat) : l < (extend c l).length := by
  unfold extend
  simp only [List.length_append, List.length_replicate]
  omega

theorem apply_getD_self (c : List Str) (o : UpOp) :
    (apply c o).getD o.ln [] = applyLine o (c.getD o.ln []) := by
  unfold apply
  rw [List.getD_eq_getElem?_getD, List.getElem?_set_self (extend_length_gt c o.ln), extend_getD]
  rfl

/-- C1, as amended: for all documents `A` and `B` and every operation `o` of `diff A B`,
if the two differing segments of line `o.ln` (what is left of the old and of the new line
between their longest common prefix and the common suffix that follows it) are each at
most 255 bytes long and free of NUL bytes, then line `o.ln` of `apply A o` is line `o.ln`
of `B`, read as the empty line where `B` is too short. -/
theorem apply_diff_line (uid : Str) (clock : Int → Int) (seq0 : Int) (A B : List Str) (o : UpOp)
    (ho : o ∈ diff uid clock seq0 A B)
    (hold : fits (oldSeg (A.getD o.ln []) (B.getD o.ln [])))
    (hnew : fits (newSeg (A.getD o.ln []) (B.getD o.ln []))) :
    (apply A o).getD o.ln [] = B.getD o.ln [] := by
  obtain ⟨j, k, _, rfl⟩ := mem_diffLoop uid clock A B o _ _ _ ho
  rw [apply_getD_self]
  exact applyLine_diffline uid (clock k) k j _ _ hold hnew

/-- C1, witness: the edit of scenario 1, "Hello World" to "Hello Mars". -/
theorem apply_diff_line_witness :
    (apply ["Hello World".toList, "Welcome".toList]
        (diffline "alice".toList 100 1 0 "Hello World".toList "Hello Mars".toList)).getD 0 []
      = "Hello Mars".toList :=
  apply_diff_line "alice".toList (fun _ => 100) 1
    ["Hello World".toList, "Welcome".toList] ["Hello Mars".toList, "Welcome".toList]
    (diffline "alice".toList 100 1 0 "Hello World".toList "Hello Mars".toList)
    (by decide) (by decide) (by decide)

set_option maxRecDepth 100000 in
/-- C1, counterexample: the empty line is edited into a line of 256 bytes. The operation
that `diff` derives carries only the first 255 of them, so applying it gives a line of 255
bytes, not line 0 of the new document. -/
theorem apply_diff_line_truncated :
    ∃ o ∈ diff "alice".toList (fun _ => 100) 1 [[]] [List.replicate 256 'x'],
      (apply [[]] o).getD o.ln [] = List.replicate 255 'x' ∧
      (apply [[]] o).getD o.ln [] ≠ ([List.replicate 256 'x'] : List Str).getD o.ln [] := by
  refine ⟨diffline "alice".toList 100 1 0 [] (List.replicate 256 'x'), ?_, ?_, ?_⟩
  · decide
  · decide
  · decide

/-- C2, the code at the failing input: the document `["a"]` is edited into `["ab"]`. The
derived operation inserts "b" at column 1; applied once it gives `["ab"]`, applied again to
that result it gives `["abb"]`, because the guard `s + n.size() < ln.size()` of `apply` is
false when the inserted text ends the line. -/
theorem apply_twice_at_line_end :
    diff "alice".toList (fun _ => 100) 1 ["a".toList] ["ab".toList]
      = [diffline "alice".toList 100 1 0 "a".toList "ab".toList] ∧
    apply ["a".toList] (diffline "alice".toList 100 1 0 "a".toList "ab".toList)
      = ["ab".toList] ∧
    apply (apply ["a".toList] (diffline "alice".toList 100 1 0 "a".toList "ab".toList))
        (diffline "alice".toList 100 1 0 "a".toList "ab".toList)
      = ["abb".toList] := by
  decide


/-! ## Apply on a mismatch of the old text -/

theorem set_getD_self (c : List Str) (i : Nat) (h : i < c.length) : c.set i (c.getD i []) = c := by
  apply List.ext_getElem?
  intro j
  rw [List.getElem?_set]
  split
  · rename_i hij
    subst hij
    simp [h, List.getD_eq_getElem?_getD]
  · rfl

theorem apply_of_applyLine_eq (D : List Str) (o : UpOp)
    (h : applyLine o (D.getD o.ln []) = D.getD o.ln []) : apply D o = extend D o.ln := by
  unfold apply
  rw [extend_getD, h, ← extend_getD D o.ln o.ln]
  exact set_getD_self _ _ (extend_length_gt D o.ln)

theorem min_eq_clamp (c0 len : Nat) : (if c0 > len then len else c0) = min c0 len := by
  split <;> omega

/-- C8, as amended: when the old text of an operation `o` does not occur in line `o.ln` of
`D` at column `min(o.c0, |line|)`, a DELETE leaves the document unchanged apart from the
empty lines added up to index `o.ln`, and a REPLACE acts exactly as the INSERT of its new
text does. -/
theorem apply_old_text_mismatch (D : List Str) (o : UpOp)
    (hmis : ((D.getD o.ln []).drop (min o.c0 (D.getD o.ln []).length)).take o.oldC.length
      ≠ o.oldC) :
    (o.t = OpType.DEL → apply D o = extend D o.ln) ∧
    (o.t = OpType.REP → apply D o = apply D { o with t := OpType.INS }) := by
  constructor
  · intro ht
    apply apply_of_applyLine_eq
    unfold applyLine
    rw [ht]
    simp only
    split
    · rename_i hlt
      rw [Nat.min_eq_left (le_of_lt hlt)] at hmis
      rw [if_neg (fun h => hmis h.2)]
    · rfl
  · intro ht
    unfold apply
    simp only [extend_getD]
    congr 1
    unfold applyLine
    rw [ht]
    simp only [min_eq_clamp]
    rw [if_neg (fun h => hmis h.2.2)]

/-- C8, witness: deleting "x" at column 0 of the line "hello". -/
theorem apply_old_text_mismatch_witness :
    apply ["hello".toList]
        { t := OpType.DEL, ln := 0, c0 := 0, c1 := 1, oldC := "x".toList, newC := [],
          uid := "bob".toList, ts := 5, seq := 1 }
      = extend ["hello".toList] 0 :=
  (apply_old_text_mismatch ["hello".toList]
    { t := OpType.DEL, ln := 0, c0 := 0, c1 := 1, oldC := "x".toList, newC := [],
      uid := "bob".toList, ts := 5, seq := 1 } (by decide)).1 rfl

/-- C8, counterexample: a REPLACE of "a" by "b" at column 0 of the line "xyz", where "a"
does not occur, is not a no-op: it inserts "b" and the line becomes "bxyz". -/
theorem apply_replace_mismatch_inserts :
    (((["xyz".toList] : List Str).getD 0 []).drop (min 0 3)).take 1 ≠ "a".toList ∧
    apply ["xyz".toList]
        { t := OpType.REP, ln := 0, c0 := 0, c1 := 1, oldC := "a".toList, newC := "b".toList,
          uid := "bob".toList, ts := 5, seq := 1 }
      = ["bxyz".toList] ∧
    apply ["xyz".toList]
        { t := OpType.REP, ln := 0, c0 := 0, c1 := 1, oldC := "a".toList, newC := "b".toList,
          uid := "bob".toList, ts := 5, seq := 1 }
      ≠ extend ["xyz".toList] 0 := by
  decide

/-! ## The winner order -/

theorem strLt_iff_lex : ∀ (a b : Str), strLt a b = true ↔ List.Lex (fun x y => x < y) a b
  | [], [] => by simp [strLt]
  | [], _ :: _ => by simp [strLt, List.Lex.nil]
  | _ :: _, [] => by simp [strLt]
  | x :: xs, y :: ys => by
    have ih := strLt_iff_lex xs ys
    simp only [strLt]
    constructor
    · intro h
      by_cases hxy : x < y
      · exact List.Lex.rel hxy
      · by_cases hyx : y < x
        · simp [hxy, hyx] at h
        · have e : x = y := le_antisymm (not_lt.mp hyx) (not_lt.mp hxy)
          subst e
          simp only [hxy, if_false] at h
          exact List.Lex.cons (ih.mp h)
    · intro h
      cases h with
      | cons h1 =>
        simp only [lt_irrefl, if_false]
        exact ih.mpr h1
      | rel h1 =>
        simp [h1]

theorem strLt_irrefl : ∀ (a : Str), strLt a a = false
  | [] => rfl
  | x :: xs => by
    simp only [strLt, lt_irrefl, if_false]
    exact strLt_irrefl xs

theorem strLt_trans : ∀ (a b c : Str), strLt a b = true → strLt b c = true → strLt a c = true
  | [], [], _ => by simp [strLt]
  | [], _ :: _, [] => by simp [strLt]
  | [], _ :: _, _ :: _ => by simp [strLt]
  | _ :: _, [], _ => by simp [strLt]
  | _ :: _, _ :: _, [] => by simp [strLt]
  | x :: xs, y :: ys, z :: zs => by
    have ih := strLt_trans xs ys zs
    simp only [strLt]
    intro h1 h2
    rcases lt_trichotomy x y with hxy | hxy | hxy
    · rcases lt_trichotomy y z with hyz | hyz | hyz
      · simp [lt_trans hxy hyz]
      · subst hyz; simp [hxy]
      · simp [hyz, not_lt.mpr (le_of_lt hyz)] at h2
    · subst hxy
      rcases lt_trichotomy x z with hyz | hyz | hyz
      · simp [hyz]
      · subst hyz
        simp only [lt_irrefl, if_false] at h1 h2 ⊢
        exact ih h1 h2
      · simp [hyz, not_lt.mpr (le_of_lt hyz)] at h2
    · simp [hxy, not_lt.mpr (le_of_lt hxy)] at h1

theorem strLt_total : ∀ (a b : Str), a ≠ b → strLt a b = true ∨ strLt b a = true
  | [], [] => by simp
  | [], _ :: _ => by simp [strLt]
  | _ :: _, [] => by simp [strLt]
  | x :: xs, y :: ys => by
    have ih := strLt_total xs ys
    intro hne
    simp only [strLt]
    rcases lt_trichotomy x y with hxy | hxy | hxy
    · simp [hxy]
    · subst hxy
      simp only [lt_irrefl, if_false]
      apply ih
      intro h
      exact hne (by rw [h])
    · simp [hxy]

theorem strLt_asymm (a b : Str) (h : strLt a b = true) : strLt b a = false := by
  cases hb : strLt b a with
  | false => rfl
  | true =>
    have := strLt_trans a b a h hb
    rw [strLt_irrefl] at this
    exact absurd this (by simp)

theorem win_iff (a b : UpOp) :
    win a b = true ↔
      (a.ts > b.ts ∨ (a.ts = b.ts ∧ a.seq > b.seq) ∨
        (a.ts = b.ts ∧ a.seq = b.seq ∧ strLt a.uid b.uid = true)) := by
  unfold win
  by_cases h1 : a.ts = b.ts
  · by_cases h2 : a.seq = b.seq
    · simp [h1, h2]
    · simp [h1, h2]
  · simp only [ne_eq, h1, not_false_eq_true, if_true, decide_eq_true_eq, false_and, or_false]

theorem win_irrefl (a : UpOp) : win a a = false := by
  simp [win, strLt_irrefl]

theorem win_trans (a b c : UpOp) (h1 : win a b = true) (h2 : win b c = true) : win a c = true := by
  rw [win_iff] at h1 h2 ⊢
  rcases h1 with h1 | ⟨e1, h1⟩ | ⟨e1, f1, h1⟩ <;> rcases h2 with h2 | ⟨e2, h2⟩ | ⟨e2, f2, h2⟩
  · left; omega
  · left; omega
  · left; omega
  · left; omega
  · right; left; exact ⟨by omega, by omega⟩
  · right; left; exact ⟨by omega, by omega⟩
  · left; omega
  · right; left; exact ⟨by omega, by omega⟩
  · right; right; exact ⟨by omega, by omega, strLt_trans _ _ _ h1 h2⟩

theorem win_asymm (a b : UpOp) (h : win a b = true) : win b a = false := by
  cases hb : win b a with
  | false => rfl
  | true =>
    have := win_trans a b a h hb
    rw [win_irrefl] at this
    exact absurd this (by simp)

theorem win_total (a b : UpOp) (h : a.ts ≠ b.ts ∨ a.seq ≠ b.seq ∨ a.uid ≠ b.uid) :
    win a b = true ∨ win b a = true := by
  rw [win_iff, win_iff]
  by_cases h1 : a.ts = b.ts
  · by_cases h2 : a.seq = b.seq
    · have h3 : a.uid ≠ b.uid := by
        rcases h with h | h | h
        · exact absurd h1 h
        · exact absurd h2 h
        · exact h
      rcases strLt_total _ _ h3 with h4 | h4
      · left; right; right; exact ⟨h1, h2, h4⟩
      · right; right; right; exact ⟨h1.symm, h2.symm, h4⟩
    · rcases lt_or_gt_of_ne h2 with h3 | h3
      · right; right; left; exact ⟨h1.symm, h3⟩
      · left; right; left; exact ⟨h1, h3⟩
  · rcases lt_or_gt_of_ne h1 with h3 | h3
    · right; left; exact h3
    · left; left; exact h3

/-- C6: `win a b` holds exactly when `a` has the larger timestamp, or the same timestamp
and the larger sequence number, or both the same and the lexicographically smaller author;
`win` is irreflexive and transitive, and of two operations that differ in timestamp,
sequence number or author exactly one beats the other. -/
theorem win_strict_total_order :
    (∀ a b : UpOp, win a b = true ↔
      (a.ts > b.ts ∨ (a.ts = b.ts ∧ a.seq > b.seq) ∨
        (a.ts = b.ts ∧ a.seq = b.seq ∧ List.Lex (fun x y => x < y) a.uid b.uid))) ∧
    (∀ a : UpOp, win a a = false) ∧
    (∀ a b c : UpOp, win a b = true → win b c = true → win a c = true) ∧
    (∀ a b : UpOp, (a.ts ≠ b.ts ∨ a.seq ≠ b.seq ∨ a.uid ≠ b.uid) →
      (win a b = true ∧ win b a = false) ∨ (win a b = false ∧ win b a = true)) := by
  refine ⟨fun a b => ?_, win_irrefl, win_trans, fun a b h => ?_⟩
  · rw [win_iff, strLt_iff_lex]
  · rcases win_total a b h with h1 | h1
    · exact Or.inl ⟨h1, win_asymm _ _ h1⟩
    · exact Or.inr ⟨win_asymm _ _ h1, h1⟩

/-! ## Leader election -/

theorem strLt_connex (a b : Str) (h1 : strLt a b = false) (h2 : strLt b a = false) : a = b := by
  by_contra hne
  rcases strLt_total a b hne with h | h
  · rw [h1] at h; exact absurd h (by simp)
  · rw [h2] at h; exact absurd h (by simp)

theorem activeNames_cons (r : UserReg) (rs : List UserReg) :
    activeNames (r :: rs) = if r.active = true then r.uid :: activeNames rs else activeNames rs := by
  unfold activeNames
  by_cases h : r.active = true
  · simp [List.filter_cons, h]
  · simp [List.filter_cons, h]

theorem leadLoop_spec : ∀ (rs : List UserReg) (b : Str) (f : Bool),
    ((leadLoop rs (b, f)).2 = true ↔ (f = true ∨ activeNames rs ≠ [])) ∧
    ((leadLoop rs (b, f)).2 = true →
      ((leadLoop rs (b, f)).1 ∈ activeNames rs ∨ (f = true ∧ (leadLoop rs (b, f)).1 = b)) ∧
      (∀ x ∈ activeNames rs, strLt x (leadLoop rs (b, f)).1 = false) ∧
      (f = true → strLt b (leadLoop rs (b, f)).1 = false))
  | [], b, f => by
    simp only [leadLoop, activeNames, List.filter_nil, List.map_nil, ne_eq, not_true_eq_false,
      or_false, List.not_mem_nil, false_or, true_implies, IsEmpty.forall_iff, implies_true,
      true_and, and_true]
    exact fun h => ⟨h, fun _ => strLt_irrefl b⟩
  | r :: rs, b, f => by
    simp only [leadLoop, activeNames_cons]
    by_cases ha : r.active = true
    · simp only [ha, if_true]
      by_cases hc : f = false ∨ strLt r.uid b = true
      · simp only [hc, if_true]
        obtain ⟨i1, i2⟩ := leadLoop_spec rs r.uid true
        have ht : (leadLoop rs (r.uid, true)).2 = true := i1.mpr (Or.inl rfl)
        obtain ⟨j1, j2, j3⟩ := i2 ht
        have j3 := j3 rfl
        refine ⟨by simp [ht], fun _ => ⟨?_, ?_, ?_⟩⟩
        · left
          rcases j1 with j1 | ⟨_, j1⟩
          · exact List.mem_cons_of_mem _ j1
          · rw [j1]; exact List.mem_cons_self _ _
        · intro x hx
          rcases List.mem_cons.mp hx with hx | hx
          · rw [hx]; exact j3
          · exact j2 x hx
        · intro hf
          rcases hc with hc | hc
          · rw [hf] at hc; exact absurd hc (by simp)
          · cases hb : strLt b (leadLoop rs (r.uid, true)).1 with
            | false => rfl
            | true =>
              have := strLt_trans _ _ _ hc hb
              rw [j3] at this
              exact absurd this (by simp)
      · simp only [hc, if_false]
        have hf : f = true := by
          cases f with
          | false => exact absurd (Or.inl rfl) hc
          | true => rfl
        have hnb : strLt r.uid b = false := by
          cases h : strLt r.uid b with
          | false => rfl
          | true => exact absurd (Or.inr h) hc
        subst hf
        obtain ⟨i1, i2⟩ := leadLoop_spec rs b true
        have ht : (leadLoop rs (b, true)).2 = true := i1.mpr (Or.inl rfl)
        obtain ⟨j1, j2, j3⟩ := i2 ht
        have j3 := j3 rfl
        refine ⟨by simp [ht], fun _ => ⟨?_, ?_, fun _ => j3⟩⟩
        · rcases j1 with j1 | j1
          · left; exact List.mem_cons_of_mem _ j1
          · right; exact j1
        · intro x hx
          rcases List.mem_cons.mp hx with hx | hx
          · rw [hx]
            cases hb : strLt r.uid (leadLoop rs (b, true)).1 with
            | false => rfl
            | true =>
              cases hbr : strLt b r.uid with
              | true =>
                have := strLt_trans _ _ _ hbr hb
                rw [j3] at this
                exact absurd this (by simp)
              | false =>
                have e := strLt_connex _ _ hnb hbr
                rw [e, j3] at hb
                exact absurd hb (by simp)
          · exact j2 x hx
    · simp only [ha, if_false]
      exact leadLoop_spec rs b f
  termination_by rs => rs.length

theorem lead_iff (reg : ShReg) (p : Str) :
    lead reg p = true ↔ (p ∈ activeUsers reg ∧ ∀ x ∈ activeUsers reg, strLt x p = false) := by
  obtain ⟨i1, i2⟩ := leadLoop_spec reg.u [] false
  have hAN : activeUsers reg = activeNames reg.u := rfl
  unfold lead
  rw [hAN]
  simp only [Bool.and_eq_true, decide_eq_true_eq]
  constructor
  · rintro ⟨h1, h2⟩
    obtain ⟨j1, j2, _⟩ := i2 h1
    subst h2
    refine ⟨?_, j2⟩
    rcases j1 with j1 | ⟨j1, _⟩
    · exact j1
    · exact absurd j1 (by simp)
  · rintro ⟨h1, h2⟩
    have ht : (leadLoop reg.u ([], false)).2 = true :=
      i1.mpr (Or.inr (List.ne_nil_of_mem h1))
    obtain ⟨j1, j2, _⟩ := i2 ht
    refine ⟨ht, ?_⟩
    rcases j1 with j1 | ⟨j1, _⟩
    · exact strLt_connex _ _ (h2 _ j1) (j2 _ h1)
    · exact absurd j1 (by simp)

/-- C9: in every registry state, `lead` holds of `p` exactly when `p` is the
lexicographically smallest name held by an active slot; so at most one name is leader, and
when some slot is active exactly one name is, and it is an active one. -/
theorem lead_iff_smallest_active (reg : ShReg) :
    (∀ p : Str, lead reg p = true ↔
      (p ∈ activeUsers reg ∧ ∀ x ∈ activeUsers reg, ¬ List.Lex (fun c d => c < d) x p)) ∧
    (∀ p q : Str, lead reg p = true → lead reg q = true → p = q) ∧
    ((∃ r ∈ reg.u, r.active = true) →
      ∃ p ∈ activeUsers reg, lead reg p = true ∧ ∀ q : Str, lead reg q = true → q = p) := by
  have huniq : ∀ p q : Str, lead reg p = true → lead reg q = true → p = q := by
    intro p q hp hq
    simp only [lead, Bool.and_eq_true, decide_eq_true_eq] at hp hq
    rw [← hp.2, ← hq.2]
  refine ⟨fun p => ?_, huniq, ?_⟩
  · rw [lead_iff]
    simp only [← strLt_iff_lex, Bool.not_eq_true]
  · rintro ⟨r, hr, hact⟩
    obtain ⟨i1, i2⟩ := leadLoop_spec reg.u [] false
    have hne : activeNames reg.u ≠ [] := by
      apply List.ne_nil_of_mem (a := r.uid)
      unfold activeNames
      exact List.mem_map.mpr ⟨r, List.mem_filter.mpr ⟨hr, by simp [hact]⟩, rfl⟩
    have ht : (leadLoop reg.u ([], false)).2 = true := i1.mpr (Or.inr hne)
    have hl : lead reg (leadLoop reg.u ([], false)).1 = true := by
      simp [lead, ht]
    exact ⟨_, ((lead_iff reg _).mp hl).1, hl, fun q hq => huniq _ _ hq hl⟩


/-! ## The sort order of `merge` -/

theorem sortLt_iff (a b : UpOp) :
    sortLt a b = true ↔
      (a.ts < b.ts ∨ (a.ts = b.ts ∧ a.seq < b.seq) ∨
        (a.ts = b.ts ∧ a.seq = b.seq ∧ strLt a.uid b.uid = true)) := by
  unfold sortLt
  by_cases h1 : a.ts = b.ts
  · by_cases h2 : a.seq = b.seq
    · simp [h1, h2]
    · simp [h1, h2]
  · simp only [ne_eq, h1, not_false_eq_true, if_true, decide_eq_true_eq, false_and, or_false]

theorem sortLt_irrefl (a : UpOp) : sortLt a a = false := by
  simp [sortLt, strLt_irrefl]

theorem sortLt_trans (a b c : UpOp) (h1 : sortLt a b = true) (h2 : sortLt b c = true) :
    sortLt a c = true := by
  rw [sortLt_iff] at h1 h2 ⊢
  rcases h1 with h1 | ⟨e1, h1⟩ | ⟨e1, f1, h1⟩ <;> rcases h2 with h2 | ⟨e2, h2⟩ | ⟨e2, f2, h2⟩
  · left; omega
  · left; omega
  · left; omega
  · left; omega
  · right; left; exact ⟨by omega, by omega⟩
  · right; left; exact ⟨by omega, by omega⟩
  · left; omega
  · right; left; exact ⟨by omega, by omega⟩
  · right; right; exact ⟨by omega, by omega, strLt_trans _ _ _ h1 h2⟩

/-- Operations that the comparator does not separate carry the same sort key. -/
theorem sortLt_connex (a b : UpOp) (h1 : sortLt a b = false) (h2 : sortLt b a = false) :
    a.ts = b.ts ∧ a.seq = b.seq ∧ a.uid = b.uid := by
  have n1 : ¬ sortLt a b = true := by rw [h1]; simp
  have n2 : ¬ sortLt b a = true := by rw [h2]; simp
  rw [sortLt_iff] at n1 n2
  have e1 : a.ts = b.ts := by
    by_contra h
    rcases lt_or_gt_of_ne h with h | h
    · exact n1 (Or.inl h)
    · exact n2 (Or.inl h)
  have e2 : a.seq = b.seq := by
    by_contra h
    rcases lt_or_gt_of_ne h with h | h
    · exact n1 (Or.inr (Or.inl ⟨e1, h⟩))
    · exact n2 (Or.inr (Or.inl ⟨e1.symm, h⟩))
  refine ⟨e1, e2, ?_⟩
  by_contra h
  rcases strLt_total _ _ h with h | h
  · exact n1 (Or.inr (Or.inr ⟨e1, e2, h⟩))
  · exact n2 (Or.inr (Or.inr ⟨e1.symm, e2.symm, h⟩))

theorem sortLt_congr_left (a b c : UpOp) (h : a.ts = b.ts ∧ a.seq = b.seq ∧ a.uid = b.uid) :
    sortLt a c = sortLt b c := by
  unfold sortLt
  rw [h.1, h.2.1, h.2.2]

theorem keyLe_total (a b : UpOp) : keyLe a b ∨ keyLe b a := by
  unfold keyLe
  cases h : sortLt b a with
  | false => exact Or.inl rfl
  | true =>
    right
    cases h2 : sortLt a b with
    | false => rfl
    | true =>
      have := sortLt_trans _ _ _ h h2
      rw [sortLt_irrefl] at this
      exact absurd this (by simp)

theorem keyLe_trans (a b c : UpOp) (h1 : keyLe a b) (h2 : keyLe b c) : keyLe a c := by
  unfold keyLe at h1 h2 ⊢
  cases h : sortLt c a with
  | false => rfl
  | true =>
    cases hbc : sortLt b c with
    | true =>
      have := sortLt_trans _ _ _ hbc h
      rw [h1] at this
      exact absurd this (by simp)
    | false =>
      have e := sortLt_congr_left b c a (sortLt_connex b c hbc h2)
      rw [h1, h] at e
      exact absurd e (by simp)

theorem sortOps_perm (v : List UpOp) : (sortOps v).Perm v := List.perm_insertionSort keyLe v

theorem sortOps_sorted (v : List UpOp) : List.Sorted keyLe (sortOps v) :=
  @List.sorted_insertionSort UpOp keyLe _ ⟨keyLe_total⟩ ⟨keyLe_trans⟩ v

/-- Two sorted arrangements of the same operations coincide when operations with the same
sort key are equal. -/
theorem sorted_perm_unique : ∀ (l1 l2 : List UpOp), l1.Perm l2 →
    List.Sorted keyLe l1 → List.Sorted keyLe l2 →
    (∀ a ∈ l1, ∀ b ∈ l1, a.ts = b.ts → a.seq = b.seq → a.uid = b.uid → a = b) → l1 = l2
  | [], l2, hp, _, _, _ => (List.Perm.nil_eq hp)
  | a :: t1, [], hp, _, _, _ => absurd hp.symm.nil_eq (by simp)
  | a :: t1, b :: t2, hp, hs1, hs2, hk => by
    have hab : a = b := by
      by_contra hne
      have ha : a ∈ b :: t2 := hp.subset (List.mem_cons_self _ _)
      have hb : b ∈ a :: t1 := hp.symm.subset (List.mem_cons_self _ _)
      have ha2 : a ∈ t2 := by
        rcases List.mem_cons.mp ha with h | h
        · exact absurd h hne
        · exact h
      have hb2 : b ∈ t1 := by
        rcases List.mem_cons.mp hb with h | h
        · exact absurd h.symm hne
        · exact h
      have r1 : keyLe a b := List.rel_of_sorted_cons hs1 b hb2
      have r2 : keyLe b a := List.rel_of_sorted_cons hs2 a ha2
      obtain ⟨e1, e2, e3⟩ := sortLt_connex a b r2 r1
      exact hne (hk a (List.mem_cons_self _ _) b hb e1 e2 e3)
    subst hab
    have ht : t1 = t2 := sorted_perm_unique t1 t2 (List.Perm.cons_inv hp) hs1.of_cons hs2.of_cons
      (fun x hx y hy => hk x (List.mem_cons_of_mem _ hx) y (List.mem_cons_of_mem _ hy))
    rw [ht]

/-- The insertion sort keeps the promise of `std::sort`. -/
theorem sortOps_sortsByKey : SortsByKey sortOps := fun v => ⟨sortOps_perm v, sortOps_sorted v⟩

/-- The reversing sort keeps the promise of `std::sort`. -/
theorem sortOpsRev_sortsByKey : SortsByKey sortOpsRev := fun v =>
  ⟨(sortOps_perm v.reverse).trans (List.reverse_perm v), sortOps_sorted v.reverse⟩

/-- Two sorting routines give the same vector on two arrangements of a batch in which
operations with the same sort key are equal. -/
theorem sort_perm_eq (sort sort1 : List UpOp → List UpOp) (hs : SortsByKey sort)
    (hs1 : SortsByKey sort1) (V V1 : List UpOp) (hp : V.Perm V1)
    (hkey : ∀ a ∈ V, ∀ b ∈ V, a.ts = b.ts → a.seq = b.seq → a.uid = b.uid → a = b) :
    sort V = sort1 V1 := by
  apply sorted_perm_unique _ _ _ (hs V).2 (hs1 V1).2
  · intro a ha b hb
    exact hkey a ((hs V).1.subset ha) b ((hs V).1.subset hb)
  · exact (hs V).1.trans (hp.trans (hs1 V1).1.symm)

/-! ## The winner filter and the application loop of `merge` -/

theorem okLoop_iff (i : Nat) (vi : UpOp) : ∀ (rest : List UpOp) (j : Nat),
    okLoop i vi j rest = true ↔
      ∀ k : Fin rest.length, j + k.val ≠ i → conf vi (rest.get k) = true →
        win vi (rest.get k) = true
  | [], j => by
    simp only [okLoop, true_iff]
    intro k
    exact absurd k.isLt (Nat.not_lt_zero _)
  | vj :: rest, j => by
    have ih := okLoop_iff i vi rest (j + 1)
    simp only [okLoop]
    have hstep : (∀ k : Fin (vj :: rest).length, j + k.val ≠ i →
          conf vi ((vj :: rest).get k) = true → win vi ((vj :: rest).get k) = true) ↔
        ((j ≠ i → conf vi vj = true → win vi vj = true) ∧
          ∀ k : Fin rest.length, j + 1 + k.val ≠ i → conf vi (rest.get k) = true →
            win vi (rest.get k) = true) := by
      constructor
      · intro h
        refine ⟨fun hj => h ⟨0, Nat.succ_pos _⟩ (by simpa using hj), fun k hk => ?_⟩
        have := h ⟨k.val + 1, Nat.succ_lt_succ k.isLt⟩ (by simp only; omega)
        simpa using this
      · rintro ⟨h0, hs⟩ ⟨k, hk⟩
        cases k with
        | zero => simpa using h0
        | succ k =>
          intro hne
          have := hs ⟨k, Nat.lt_of_succ_lt_succ hk⟩ (by simp only at hne ⊢; omega)
          simpa using this
    rw [hstep, ← ih]
    by_cases hij : i = j
    · subst hij
      simp
    · have hji : j ≠ i := fun h => hij h.symm
      simp only [hij, if_false]
      by_cases hc : conf vi vj = true
      · cases hw : win vi vj <;> simp [hc, hw, hji]
      · simp [hc]

theorem okLoop_eq_decide (v : List UpOp) (i : Nat) (vi : UpOp) :
    okLoop i vi 0 v = decide (beatsOthers v i vi) := by
  rw [Bool.eq_iff_iff, okLoop_iff, decide_eq_true_iff]
  unfold beatsOthers
  simp only [Nat.zero_add]

theorem winnersFrom_eq (v : List UpOp) : ∀ (rest : List UpOp) (i : Nat),
    winnersFrom v i rest =
      ((rest.enumFrom i).filter (fun p => decide (beatsOthers v p.1 p.2))).map Prod.snd
  | [], i => rfl
  | vi :: rest, i => by
    simp only [winnersFrom, List.enumFrom_cons, List.filter_cons, okLoop_eq_decide]
    rw [winnersFrom_eq v rest (i + 1)]
    split <;> simp

/-- The vector `w` computed by the two nested loops of `merge` is the winner set. -/
theorem winners_eq_winnerSet (v : List UpOp) : winners v = winnerSet v := by
  unfold winners winnerSet List.enum
  exact winnersFrom_eq v v 0

theorem firstOfFingerprint_cons (o : UpOp) (os : List UpOp) :
    firstOfFingerprint (o :: os) =
      o :: (firstOfFingerprint os).filter (fun u => decide (opid u ≠ opid o)) := by
  rw [firstOfFingerprint]

theorem firstOfFingerprint_filter (f : Str) : ∀ (l : List UpOp),
    firstOfFingerprint (l.filter (fun u => decide (opid u ≠ f))) =
      (firstOfFingerprint l).filter (fun u => decide (opid u ≠ f))
  | [] => rfl
  | x :: xs => by
    have ih := firstOfFingerprint_filter f xs
    by_cases hx : opid x = f
    · have h1 : ¬ ((fun u => decide (opid u ≠ f)) x = true) := by
        simp only [decide_eq_true_eq]
        exact fun h => h hx
      rw [List.filter_cons_of_neg (p := fun u => decide (opid u ≠ f)) h1, ih,
        firstOfFingerprint_cons,
        List.filter_cons_of_neg (p := fun u => decide (opid u ≠ f)) h1, List.filter_filter]
      apply List.filter_congr
      intro u _
      rw [hx, Bool.and_self]
    · have h1 : (fun u => decide (opid u ≠ f)) x = true := decide_eq_true hx
      rw [List.filter_cons_of_pos (p := fun u => decide (opid u ≠ f)) h1,
        firstOfFingerprint_cons, firstOfFingerprint_cons,
        List.filter_cons_of_pos (p := fun u => decide (opid u ≠ f)) h1,
        ih, List.filter_filter, List.filter_filter]
      refine congrArg (List.cons x) (List.filter_congr ?_)
      intro u _
      exact Bool.and_comm _ _

theorem mergeStep_seen (d : List Str) (s : Finset Str) (o : UpOp) (ho : opid o ∈ s) :
    mergeStep (d, s) o = (d, s) := by
  unfold mergeStep
  rw [if_pos ho]

theorem mergeStep_new (d : List Str) (s : Finset Str) (o : UpOp) (ho : opid o ∉ s) :
    mergeStep (d, s) o = (apply d o, insert (opid o) s) := by
  unfold mergeStep
  rw [if_neg ho]

theorem foldl_mergeStep : ∀ (W : List UpOp) (d : List Str) (s : Finset Str),
    W.foldl mergeStep (d, s) =
      ((firstOfFingerprint (W.filter (fun o => decide (opid o ∉ s)))).foldl apply d,
        s ∪ (W.map opid).toFinset)
  | [], d, s => by
    show (d, s) = (d, s ∪ ∅)
    rw [Finset.union_empty]
  | o :: W, d, s => by
    rw [List.foldl_cons, List.map_cons, List.toFinset_cons]
    by_cases ho : opid o ∈ s
    · have h1 : ¬ ((fun u => decide (opid u ∉ s)) o = true) := by
        simp only [decide_eq_true_eq]
        exact fun h => h ho
      rw [mergeStep_seen d s o ho, foldl_mergeStep W d s,
        List.filter_cons_of_neg (p := fun u => decide (opid u ∉ s)) h1]
      refine congrArg (Prod.mk _) ?_
      ext x
      simp only [Finset.mem_union, Finset.mem_insert]
      constructor
      · rintro (h | h)
        · exact Or.inl h
        · exact Or.inr (Or.inr h)
      · rintro (h | h | h)
        · exact Or.inl h
        · exact Or.inl (h ▸ ho)
        · exact Or.inr h
    · have h1 : (fun u => decide (opid u ∉ s)) o = true := decide_eq_true ho
      rw [mergeStep_new d s o ho, foldl_mergeStep W (apply d o) (insert (opid o) s),
        List.filter_cons_of_pos (p := fun u => decide (opid u ∉ s)) h1]
      have hf : W.filter (fun u => decide (opid u ∉ insert (opid o) s)) =
          (W.filter (fun u => decide (opid u ∉ s))).filter (fun u => decide (opid u ≠ opid o)) := by
        rw [List.filter_filter]
        apply List.filter_congr
        intro u _
        rw [Bool.eq_iff_iff]
        simp only [Finset.mem_insert, not_or, ne_eq, Bool.and_eq_true, decide_eq_true_eq]
      rw [hf, firstOfFingerprint_filter]
      rw [firstOfFingerprint_cons, List.foldl_cons]
      refine congrArg (Prod.mk _) ?_
      ext x
      simp only [Finset.mem_union, Finset.mem_insert]
      tauto

/-- The document and seen set that `merge` returns, in terms of the applied operations. -/
theorem merge_eq_applied (sort : List UpOp → List UpOp) (V : List UpOp) (M : List Str)
    (S : Finset Str) :
    merge sort V M S =
      ((appliedOps (sort V) S).foldl apply M, S ∪ ((winnerSet (sort V)).map opid).toFinset) := by
  unfold merge appliedOps
  rw [winners_eq_winnerSet, foldl_mergeStep]

theorem firstOfFingerprint_sublist : ∀ (l : List UpOp), (firstOfFingerprint l).Sublist l
  | [] => List.Sublist.slnil
  | o :: os => by
    rw [firstOfFingerprint_cons]
    exact List.Sublist.cons₂ o ((List.filter_sublist _).trans (firstOfFingerprint_sublist os))

theorem mem_map_opid_firstOfFingerprint (f : Str) : ∀ (l : List UpOp),
    f ∈ (firstOfFingerprint l).map opid ↔ f ∈ l.map opid
  | [] => Iff.rfl
  | o :: os => by
    have ih := mem_map_opid_firstOfFingerprint f os
    rw [firstOfFingerprint_cons, List.map_cons, List.map_cons, List.mem_cons, List.mem_cons]
    constructor
    · rintro (h | h)
      · exact Or.inl h
      · right
        apply ih.mp
        obtain ⟨u, hu, rfl⟩ := List.mem_map.mp h
        exact List.mem_map.mpr ⟨u, (List.mem_filter.mp hu).1, rfl⟩
    · rintro (h | h)
      · exact Or.inl h
      · by_cases hf : f = opid o
        · exact Or.inl hf
        · right
          obtain ⟨u, hu, rfl⟩ := List.mem_map.mp (ih.mpr h)
          exact List.mem_map.mpr ⟨u, List.mem_filter.mpr ⟨hu, decide_eq_true hf⟩, rfl⟩

theorem nodup_map_opid_firstOfFingerprint : ∀ (l : List UpOp),
    ((firstOfFingerprint l).map opid).Nodup
  | [] => List.nodup_nil
  | o :: os => by
    rw [firstOfFingerprint_cons, List.map_cons, List.nodup_cons]
    constructor
    · intro h
      obtain ⟨u, hu, he⟩ := List.mem_map.mp h
      have := (List.mem_filter.mp hu).2
      rw [decide_eq_true_eq] at this
      exact this he
    · exact (nodup_map_opid_firstOfFingerprint os).sublist ((List.filter_sublist _).map opid)

theorem firstOfFingerprint_of_nodup : ∀ (l : List UpOp), (l.map opid).Nodup →
    firstOfFingerprint l = l
  | [], _ => rfl
  | o :: os, h => by
    rw [List.map_cons, List.nodup_cons] at h
    rw [firstOfFingerprint_cons, firstOfFingerprint_of_nodup os h.2]
    refine congrArg (List.cons o) (List.filter_eq_self.mpr ?_)
    intro u hu
    apply decide_eq_true
    intro he
    exact h.1 (he ▸ List.mem_map_of_mem opid hu)

theorem winnerSet_sublist (V : List UpOp) : (winnerSet V).Sublist V := by
  unfold winnerSet
  have h : (List.filter (fun p => decide (beatsOthers V p.1 p.2)) V.enum).Sublist V.enum :=
    List.filter_sublist _
  have h2 := h.map Prod.snd
  rwa [List.enum_map_snd] at h2

theorem toFinset_map_opid_appliedOps (sv : List UpOp) (S : Finset Str) :
    S ∪ ((appliedOps sv S).map opid).toFinset = S ∪ ((winnerSet sv).map opid).toFinset := by
  ext f
  simp only [Finset.mem_union, List.mem_toFinset]
  unfold appliedOps
  rw [mem_map_opid_firstOfFingerprint]
  constructor
  · rintro (h | h)
    · exact Or.inl h
    · obtain ⟨u, hu, rfl⟩ := List.mem_map.mp h
      exact Or.inr (List.mem_map.mpr ⟨u, (List.mem_filter.mp hu).1, rfl⟩)
  · rintro (h | h)
    · exact Or.inl h
    · by_cases hf : f ∈ S
      · exact Or.inl hf
      · obtain ⟨u, hu, rfl⟩ := List.mem_map.mp h
        exact Or.inr (List.mem_map.mpr ⟨u, List.mem_filter.mpr ⟨hu, decide_eq_true hf⟩, rfl⟩)

theorem perm_cons_eraseIdx (V : List UpOp) (i : Nat) (h : i < V.length) :
    V.Perm (V[i] :: V.eraseIdx i) := by
  have e : V = V.take i ++ V[i] :: V.drop (i + 1) := by
    rw [← List.drop_eq_getElem_cons h, List.take_append_drop]
  rw [List.eraseIdx_eq_take_drop_succ]
  conv_lhs => rw [e]
  exact List.perm_middle

/-- The operation at index `i` beats the operations at the other indices exactly when it
beats the batch without one occurrence of it. -/
theorem beatsOthers_iff_beatsRest (V : List UpOp) (i : Nat) (v : UpOp) (h : V[i]? = some v) :
    beatsOthers V i v ↔ beatsRest V v := by
  obtain ⟨hi, hv⟩ := List.getElem?_eq_some.mp h
  have hmem : v ∈ V := hv ▸ List.getElem_mem hi
  have hperm : (V.eraseIdx i).Perm (V.erase v) := by
    have h1 := perm_cons_eraseIdx V i hi
    rw [hv] at h1
    exact List.Perm.cons_inv (h1.symm.trans (List.perm_cons_erase hmem))
  unfold beatsOthers beatsRest
  constructor
  · intro hb u hu hc
    obtain ⟨j, hj, hne, rfl⟩ := List.mem_eraseIdx_iff_getElem.mp (hperm.symm.subset hu)
    exact hb ⟨j, hj⟩ hne hc
  · intro hb j hne hc
    exact hb _ (hperm.subset (List.mem_eraseIdx_iff_getElem.mpr ⟨j.val, j.isLt, hne, rfl⟩)) hc

/-- The winner set of a batch: its operations that beat the rest of the batch. -/
theorem winnerSet_eq_filter (V : List UpOp) :
    winnerSet V = V.filter (fun v => decide (beatsRest V v)) := by
  unfold winnerSet
  have e : V.enum.filter (fun p => decide (beatsOthers V p.1 p.2)) =
      V.enum.filter ((fun v => decide (beatsRest V v)) ∘ Prod.snd) := by
    apply List.filter_congr
    rintro ⟨i, v⟩ hp
    rw [Function.comp_apply, Bool.eq_iff_iff, decide_eq_true_iff, decide_eq_true_iff]
    exact beatsOthers_iff_beatsRest V i v (List.mk_mem_enum_iff_getElem?.mp hp)
  rw [e, ← List.filter_map, List.enum_map_snd]

theorem beatsRest_of_perm (V V1 : List UpOp) (hp : V1.Perm V) (v : UpOp) :
    beatsRest V1 v ↔ beatsRest V v := by
  unfold beatsRest
  constructor
  · intro h u hu
    exact h u ((hp.erase v).symm.subset hu)
  · intro h u hu
    exact h u ((hp.erase v).subset hu)

/-- The winners of a rearranged batch, in terms of the batch as it was given. -/
theorem winnerSet_of_perm (V V1 : List UpOp) (hp : V1.Perm V) :
    winnerSet V1 = V1.filter (fun v => decide (beatsRest V v)) := by
  rw [winnerSet_eq_filter]
  apply List.filter_congr
  intro v _
  rw [Bool.eq_iff_iff, decide_eq_true_iff, decide_eq_true_iff]
  exact beatsRest_of_perm V V1 hp v

/-- Rearranging a batch rearranges its winner set. -/
theorem winnerSet_perm (V V1 : List UpOp) (hp : V1.Perm V) :
    (winnerSet V1).Perm (winnerSet V) := by
  rw [winnerSet_of_perm V V1 hp, winnerSet_eq_filter V]
  exact hp.filter _

theorem conf_symm (a b : UpOp) : conf a b = conf b a := by
  unfold conf
  by_cases h : a.ln = b.ln
  · simp [h, Bool.or_comm]
  · have h2 : ¬ b.ln = a.ln := fun e => h e.symm
    simp [h, h2]

theorem winners_pair (x y : UpOp) (hc : conf x y = true) (hw : win y x = true) :
    winners [x, y] = [y] ∧ winners [y, x] = [y] := by
  have hc2 : conf y x = true := by rw [conf_symm]; exact hc
  have hw2 : win x y = false := win_asymm _ _ hw
  constructor
  · simp [winners, winnersFrom, okLoop, hc, hc2, hw, hw2]
  · simp [winners, winnersFrom, okLoop, hc, hc2, hw, hw2]

theorem perm_pair (x y : UpOp) : ∀ (l : List UpOp), l.Perm [x, y] → l = [x, y] ∨ l = [y, x]
  | [], h => absurd h.length_eq (by simp)
  | [_], h => absurd h.length_eq (by simp)
  | _ :: _ :: _ :: _, h => absurd h.length_eq (by simp)
  | [a, b], h => by
    have ha : a ∈ [x, y] := h.subset (List.mem_cons_self _ _)
    rcases List.mem_cons.mp ha with e | e
    · subst e
      have hb := List.perm_singleton.mp (List.Perm.cons_inv h)
      exact Or.inl (by rw [hb])
    · rw [List.mem_singleton] at e
      subst e
      have hb := List.perm_singleton.mp (List.Perm.cons_inv (h.trans (List.Perm.swap _ _ _)))
      exact Or.inr (by rw [hb])

theorem merge_pair (sort : List UpOp → List UpOp) (hs : SortsByKey sort) (a b : UpOp)
    (M : List Str) (S : Finset Str)
    (hc : conf a b = true) (hw : win b a = true) (hb : opid b ∉ S) :
    merge sort [a, b] M S = (apply M b, insert (opid b) S) ∧
    merge sort [b, a] M S = (apply M b, insert (opid b) S) := by
  have hw1 := winners_pair a b hc hw
  have key : ∀ l : List UpOp, winners l = [b] →
      (winners l).foldl mergeStep (M, S) = (apply M b, insert (opid b) S) := by
    intro l hl
    rw [hl, List.foldl_cons, List.foldl_nil, mergeStep_new M S b hb]
  unfold merge
  constructor
  · rcases perm_pair a b _ (hs [a, b]).1 with h | h
    · rw [h]; exact key _ hw1.1
    · rw [h]; exact key _ hw1.2
  · rcases perm_pair b a _ (hs [b, a]).1 with h | h
    · rw [h]; exact key _ hw1.2
    · rw [h]; exact key _ hw1.1

/-! ## Merge -/

/-- C3, as amended: when no two different operations of the batch `V` carry the same
(timestamp, sequence, author), `merge` returns the same document and the same seen set for
every batch `V1` that is a permutation of `V`, from every master document and seen set,
whatever routines sort the two batches; and the sorted batch is then the only arrangement
of `V` that the comparator accepts as sorted, so the result does not depend on how the sort
treats operations it cannot separate. -/
theorem merge_perm (sort sort1 : List UpOp → List UpOp) (hs : SortsByKey sort)
    (hs1 : SortsByKey sort1) (V V1 : List UpOp) (M : List Str) (S : Finset Str)
    (hp : V.Perm V1)
    (hkey : ∀ a ∈ V, ∀ b ∈ V, a.ts = b.ts → a.seq = b.seq → a.uid = b.uid → a = b) :
    merge sort V M S = merge sort1 V1 M S ∧
    (∀ l : List UpOp, l.Perm V → List.Sorted keyLe l → l = sort V) := by
  constructor
  · unfold merge
    rw [sort_perm_eq sort sort1 hs hs1 V V1 hp hkey]
  · intro l hl hsl
    refine (sorted_perm_unique (sort V) l ((hs V).1.trans hl.symm) (hs V).2 hsl ?_).symm
    intro a ha b hb
    exact hkey a ((hs V).1.subset ha) b ((hs V).1.subset hb)

/-- C3, witness: the two operations of scenario 2 in either order. -/
theorem merge_perm_witness :
    merge sortOps
        [{ t := OpType.INS, ln := 0, c0 := 1, c1 := 2, oldC := [], newC := "1".toList,
           uid := "alice".toList, ts := 100, seq := 1 },
         { t := OpType.INS, ln := 1, c0 := 1, c1 := 2, oldC := [], newC := "1".toList,
           uid := "bob".toList, ts := 101, seq := 1 }]
        ["X".toList, "Y".toList] ∅
      = merge sortOps
        [{ t := OpType.INS, ln := 1, c0 := 1, c1 := 2, oldC := [], newC := "1".toList,
           uid := "bob".toList, ts := 101, seq := 1 },
         { t := OpType.INS, ln := 0, c0 := 1, c1 := 2, oldC := [], newC := "1".toList,
           uid := "alice".toList, ts := 100, seq := 1 }]
        ["X".toList, "Y".toList] ∅ :=
  (merge_perm sortOps sortOps sortOps_sortsByKey sortOps_sortsByKey _ _ _ _
    (List.Perm.swap _ _ _) (by decide)).1

/-- C3, counterexample: two insertions into line 0, at columns 0 and 1, stamped with the
same timestamp, sequence number and author. Neither conflicts with the other and the
comparator does not separate them, so a sort that leaves them in batch order, as `std::sort`
does with a vector of two, has them applied in batch order: the batch in one order turns
"ab" into "XYab", in the other order into "XaYb". -/
theorem merge_order_dependent :
    List.Perm [insX, insY] [insY, insX] ∧
    (sortOps [insX, insY] = [insX, insY] ∧ sortOps [insY, insX] = [insY, insX]) ∧
    (merge sortOps [insX, insY] ["ab".toList] ∅).1 = ["XYab".toList] ∧
    (merge sortOps [insY, insX] ["ab".toList] ∅).1 = ["XaYb".toList] ∧
    merge sortOps [insX, insY] ["ab".toList] ∅ ≠ merge sortOps [insY, insX] ["ab".toList] ∅ := by
  refine ⟨List.Perm.swap _ _ _, ⟨?_, ?_⟩, ?_, ?_, ?_⟩
  · decide
  · decide
  · decide
  · decide
  · decide

/-- C4, as amended: for every sorting routine that keeps the promise of `std::sort`, the
document returned by `merge` is `M` after applying, in the order of the sorted batch
(ascending by (timestamp, sequence, author), a rearrangement of `V`), exactly the
operations of `V` that beat every other operation of `V` conflicting with them, whose
fingerprint is not in `S` and is not the fingerprint of an earlier one of them; the
fingerprints of these operations are what is added to the seen set. When the fingerprints
of `V` are pairwise different these are all winners with a fingerprint outside `S`. For a
batch of two conflicting operations of which `b` beats `a` and is unseen, the result is
`apply M b` and only the fingerprint of `b` is added. -/
theorem merge_applies_winners (sort : List UpOp → List UpOp) (hs : SortsByKey sort)
    (V : List UpOp) (M : List Str) (S : Finset Str) :
    merge sort V M S =
      ((appliedOps (sort V) S).foldl apply M,
        S ∪ ((appliedOps (sort V) S).map opid).toFinset) ∧
    (List.Sorted keyLe (sort V) ∧ (sort V).Perm V) ∧
    winnerSet (sort V) = (sort V).filter (fun v => decide (beatsRest V v)) ∧
    ((V.map opid).Nodup →
      appliedOps (sort V) S = (winnerSet (sort V)).filter (fun o => decide (opid o ∉ S))) ∧
    (∀ a b : UpOp, conf a b = true → win b a = true → opid b ∉ S →
      merge sort [a, b] M S = (apply M b, insert (opid b) S) ∧
      merge sort [b, a] M S = (apply M b, insert (opid b) S)) := by
  refine ⟨?_, ⟨(hs V).2, (hs V).1⟩, winnerSet_of_perm _ _ (hs V).1, ?_,
    fun a b hc hw hb => merge_pair sort hs a b M S hc hw hb⟩
  · rw [merge_eq_applied, toFinset_map_opid_appliedOps]
  · intro hnd
    unfold appliedOps
    apply firstOfFingerprint_of_nodup
    have h1 : ((sort V).map opid).Nodup := ((hs V).1.map opid).nodup_iff.mpr hnd
    have h2 : ((winnerSet (sort V)).filter (fun o => decide (opid o ∉ S))).Sublist (sort V) :=
      (List.filter_sublist _).trans (winnerSet_sublist _)
    exact h1.sublist (h2.map opid)

/-- C4, witness: scenario 3. Alice and Bob replace "A" in columns [0,1) of line 0 at the
same timestamp; Bob has the larger sequence number, and line 0 becomes "C". -/
theorem merge_applies_winners_witness :
    merge sortOps
        [{ t := OpType.REP, ln := 0, c0 := 0, c1 := 1, oldC := "A".toList, newC := "B".toList,
           uid := "alice".toList, ts := 200, seq := 1 },
         { t := OpType.REP, ln := 0, c0 := 0, c1 := 1, oldC := "A".toList, newC := "C".toList,
           uid := "bob".toList, ts := 200, seq := 2 }]
        ["A".toList] ∅
      = (["C".toList],
          {opid { t := OpType.REP, ln := 0, c0 := 0, c1 := 1, oldC := "A".toList,
                  newC := "C".toList, uid := "bob".toList, ts := 200, seq := 2 }}) :=
  ((merge_applies_winners sortOps sortOps_sortsByKey
      [{ t := OpType.REP, ln := 0, c0 := 0, c1 := 1, oldC := "A".toList, newC := "B".toList,
         uid := "alice".toList, ts := 200, seq := 1 },
       { t := OpType.REP, ln := 0, c0 := 0, c1 := 1, oldC := "A".toList, newC := "C".toList,
         uid := "bob".toList, ts := 200, seq := 2 }]
      ["A".toList] ∅).2.2.2.2
    { t := OpType.REP, ln := 0, c0 := 0, c1 := 1, oldC := "A".toList, newC := "B".toList,
      uid := "alice".toList, ts := 200, seq := 1 }
    { t := OpType.REP, ln := 0, c0 := 0, c1 := 1, oldC := "A".toList, newC := "C".toList,
      uid := "bob".toList, ts := 200, seq := 2 }
    (by decide) (by decide) (by decide)).1.trans (by decide)

/-- C4, counterexample: the batch holds the same deletion twice (delete "a" at column 1 of
line 0, an empty column range, so the two copies do not conflict). The sorted batch is the
batch itself, whatever the sort. Both copies are winners whose fingerprint is not in the
empty seen set, and applying both to "aaab" gives "ab"; `merge` applies the first copy only
and returns "aab". -/
theorem merge_skips_repeated_fingerprint :
    (∀ l : List UpOp, l.Perm [delA, delA] → l = [delA, delA]) ∧
    winnerSet [delA, delA] = [delA, delA] ∧
    ((winnerSet [delA, delA]).filter
        (fun o => decide (opid o ∉ (∅ : Finset Str)))).foldl apply ["aaab".toList]
      = ["ab".toList] ∧
    (merge sortOps [delA, delA] ["aaab".toList] ∅).1 = ["aab".toList] := by
  refine ⟨?_, ?_, ?_, ?_⟩
  · intro l hl
    rcases perm_pair delA delA l hl with h | h
    · exact h
    · exact h
  · decide
  · decide
  · decide

/-- C5: for every sorting routine that keeps the promise of `std::sort`, `merge` only adds
to the seen set; an iteration of its loop whose operation has a fingerprint in the seen set
changes neither the document nor the seen set, and every operation the round applies has a
fingerprint that is outside the seen set it started from and that no operation applied
before it in the round has; and merging the same batch again, in the order it was given or
in any other order (such as the sorted order that the first round left it in), from any
document and the seen set that the first round returned, returns that document and that
seen set unchanged. -/
theorem merge_seen_monotone (sort : List UpOp → List UpOp) (hs : SortsByKey sort)
    (V : List UpOp) (M : List Str) (S : Finset Str) :
    S ⊆ (merge sort V M S).2 ∧
    ((∀ (d : List Str) (s : Finset Str) (o : UpOp), opid o ∈ s → mergeStep (d, s) o = (d, s)) ∧
      (merge sort V M S).1 = (appliedOps (sort V) S).foldl apply M ∧
      (∀ o ∈ appliedOps (sort V) S, opid o ∉ S) ∧
      ((appliedOps (sort V) S).map opid).Nodup) ∧
    (∀ (V1 : List UpOp) (D : List Str), V1.Perm V →
      merge sort V1 D (merge sort V M S).2 = (D, (merge sort V M S).2)) := by
  refine ⟨?_, ⟨mergeStep_seen, ?_, ?_, ?_⟩, ?_⟩
  · rw [merge_eq_applied]
    exact Finset.subset_union_left
  · rw [merge_eq_applied]
  · intro o ho
    have h := (firstOfFingerprint_sublist _).subset ho
    have h2 := (List.mem_filter.mp h).2
    rwa [decide_eq_true_eq] at h2
  · exact nodup_map_opid_firstOfFingerprint _
  · intro V1 D hp
    rw [merge_eq_applied sort V M S, merge_eq_applied sort V1 D]
    have hw : (winnerSet (sort V1)).Perm (winnerSet (sort V)) :=
      winnerSet_perm _ _ ((hs V1).1.trans (hp.trans (hs V).1.symm))
    have hnil : (winnerSet (sort V1)).filter
        (fun o => decide (opid o ∉ S ∪ ((winnerSet (sort V)).map opid).toFinset)) = [] := by
      rw [List.filter_eq_nil_iff]
      intro o ho
      rw [decide_eq_true_eq, not_not]
      exact Finset.mem_union_right _
        (List.mem_toFinset.mpr (List.mem_map_of_mem opid (hw.subset ho)))
    unfold appliedOps
    rw [hnil]
    refine congrArg (Prod.mk D) ?_
    ext f
    simp only [Finset.mem_union, List.mem_toFinset]
    constructor
    · rintro ((h | h) | h)
      · exact Or.inl h
      · exact Or.inr h
      · exact Or.inr ((hw.map opid).subset h)
    · intro h
      exact Or.inl h

/-- C5, witness: the batch of scenario 3 is merged with a sort that is not stable, and
merged again, in the opposite order and from another document, with the seen set of the
first round. -/
theorem merge_seen_monotone_witness :
    merge sortOpsRev
        [{ t := OpType.REP, ln := 0, c0 := 0, c1 := 1, oldC := "A".toList, newC := "C".toList,
           uid := "bob".toList, ts := 200, seq := 2 },
         { t := OpType.REP, ln := 0, c0 := 0, c1 := 1, oldC := "A".toList, newC := "B".toList,
           uid := "alice".toList, ts := 200, seq := 1 }]
        ["Axy".toList]
        (merge sortOpsRev
          [{ t := OpType.REP, ln := 0, c0 := 0, c1 := 1, oldC := "A".toList,
             newC := "B".toList, uid := "alice".toList, ts := 200, seq := 1 },
           { t := OpType.REP, ln := 0, c0 := 0, c1 := 1, oldC := "A".toList,
             newC := "C".toList, uid := "bob".toList, ts := 200, seq := 2 }]
          ["A".toList] ∅).2
      = (["Axy".toList],
          (merge sortOpsRev
            [{ t := OpType.REP, ln := 0, c0 := 0, c1 := 1, oldC := "A".toList,
               newC := "B".toList, uid := "alice".toList, ts := 200, seq := 1 },
             { t := OpType.REP, ln := 0, c0 := 0, c1 := 1, oldC := "A".toList,
               newC := "C".toList, uid := "bob".toList, ts := 200, seq := 2 }]
            ["A".toList] ∅).2) :=
  (merge_seen_monotone sortOpsRev sortOpsRev_sortsByKey _ ["A".toList] ∅).2.2 _ _
    (List.Perm.swap _ _ _)

/-! ## The registry -/

theorem activeNames_eq_of_slotKeys (rs rs1 : List UserReg) (h : slotKeys rs1 = slotKeys rs) :
    activeNames rs1 = activeNames rs := by
  induction rs1 generalizing rs with
  | nil =>
    cases rs with
    | nil => rfl
    | cons r rs => simp [slotKeys] at h
  | cons r1 rs1 ih =>
    cases rs with
    | nil => simp [slotKeys] at h
    | cons r rs =>
      simp only [slotKeys, List.map_cons, List.cons.injEq, Prod.mk.injEq] at h
      obtain ⟨⟨h1, h2⟩, h3⟩ := h
      rw [activeNames_cons, activeNames_cons, h1, h2, ih rs h3]

theorem reconnect_none_iff (uid qn : Str) : ∀ (rs : List UserReg),
    reconnect uid qn rs = none ↔ uid ∉ activeNames rs
  | [] => by simp [reconnect, activeNames]
  | r :: rs => by
    have ih := reconnect_none_iff uid qn rs
    rw [activeNames_cons]
    simp only [reconnect]
    by_cases h : r.active = true ∧ r.uid = uid
    · rw [if_pos h, if_pos h.1]
      simp [h.2]
    · rw [if_neg h]
      rw [Option.map_eq_none', ih]
      by_cases ha : r.active = true
      · have hne : ¬ r.uid = uid := fun e => h ⟨ha, e⟩
        rw [if_pos ha, List.mem_cons, not_or]
        exact ⟨fun hh => ⟨fun e => hne e.symm, hh⟩, fun hh => hh.2⟩
      · rw [if_neg ha]

theorem reconnect_some (uid qn : Str) : ∀ (rs rs1 : List UserReg),
    reconnect uid qn rs = some rs1 → slotKeys rs1 = slotKeys rs
  | [], rs1 => by simp [reconnect]
  | r :: rs, rs1 => by
    have ih := reconnect_some uid qn rs
    simp only [reconnect]
    by_cases h : r.active = true ∧ r.uid = uid
    · rw [if_pos h]
      intro e
      simp only [Option.some.injEq] at e
      rw [← e]
      simp [slotKeys]
    · rw [if_neg h]
      intro e
      obtain ⟨rs2, h2, rfl⟩ := Option.map_eq_some'.mp e
      simp only [slotKeys, List.map_cons, List.cons.injEq, true_and]
      exact ih rs2 h2

theorem claim_none_iff (uid qn : Str) : ∀ (rs : List UserReg),
    claim uid qn rs = none ↔ (activeNames rs).length = rs.length
  | [] => by simp [claim, activeNames]
  | r :: rs => by
    have ih := claim_none_iff uid qn rs
    have hle : (activeNames rs).length ≤ rs.length := by
      unfold activeNames
      rw [List.length_map]
      exact List.length_filter_le _ _
    rw [activeNames_cons]
    simp only [claim]
    by_cases h : r.active = false
    · rw [if_pos h, if_neg (by rw [h]; simp)]
      simp only [List.length_cons]
      constructor
      · intro e
        exact absurd e (by simp)
      · intro e
        omega
    · have ha : r.active = true := by
        cases hr : r.active with
        | false => exact absurd hr h
        | true => rfl
      rw [if_neg h, if_pos ha, Option.map_eq_none', ih]
      simp only [List.length_cons]
      omega

theorem claim_some (uid qn : Str) : ∀ (rs rs1 : List UserReg),
    claim uid qn rs = some rs1 →
      rs1.length = rs.length ∧ (activeNames rs1).Perm (cstr 31 uid :: activeNames rs)
  | [], rs1 => by simp [claim]
  | r :: rs, rs1 => by
    have ih := claim_some uid qn rs
    simp only [claim]
    by_cases h : r.active = false
    · rw [if_pos h]
      intro e
      simp only [Option.some.injEq] at e
      rw [← e, activeNames_cons, activeNames_cons, if_pos rfl, if_neg (by rw [h]; simp)]
      exact ⟨rfl, List.Perm.refl _⟩
    · have ha : r.active = true := by
        cases hr : r.active with
        | false => exact absurd hr h
        | true => rfl
      rw [if_neg h]
      intro e
      obtain ⟨rs2, h2, rfl⟩ := Option.map_eq_some'.mp e
      obtain ⟨i1, i2⟩ := ih rs2 h2
      simp only [activeNames_cons, ha, if_true]
      refine ⟨by simp [i1], ?_⟩
      exact (List.Perm.cons _ i2).trans (List.Perm.swap _ _ _)

theorem release_some (uid : Str) : ∀ (rs rs1 : List UserReg),
    release uid rs = some rs1 →
      rs1.length = rs.length ∧ (uid :: activeNames rs1).Perm (activeNames rs)
  | [], rs1 => by simp [release]
  | r :: rs, rs1 => by
    have ih := release_some uid rs
    simp only [release]
    by_cases h : r.active = true ∧ r.uid = uid
    · rw [if_pos h]
      intro e
      simp only [Option.some.injEq] at e
      rw [← e, activeNames_cons, activeNames_cons, if_pos h.1, if_neg (by simp), h.2]
      exact ⟨rfl, List.Perm.refl _⟩
    · rw [if_neg h]
      intro e
      obtain ⟨rs2, h2, rfl⟩ := Option.map_eq_some'.mp e
      obtain ⟨i1, i2⟩ := ih rs2 h2
      refine ⟨by simp [i1], ?_⟩
      by_cases ha : r.active = true
      · simp only [activeNames_cons, ha, if_true]
        exact (List.Perm.swap _ _ _).trans (List.Perm.cons _ i2)
      · simp only [activeNames_cons, ha, if_false]
        exact i2

theorem activeCount_eq (reg : ShReg) : activeCount reg = (activeNames reg.u).length := by
  unfold activeCount activeNames
  rw [List.length_map]

theorem slotKeys_length (rs rs1 : List UserReg) (h : slotKeys rs1 = slotKeys rs) :
    rs1.length = rs.length := by
  have := congrArg List.length h
  simpa [slotKeys] using this

theorem regUser_count (reg : ShReg) (uid qn : Str)
    (h : reg.u.length = MaxUsers ∧ reg.cnt = ((activeNames reg.u).length : Int)) :
    (regUser reg uid qn).2.u.length = MaxUsers ∧
      (regUser reg uid qn).2.cnt = ((activeNames (regUser reg uid qn).2.u).length : Int) := by
  unfold regUser
  cases hr : reconnect uid qn reg.u with
  | some u1 =>
    have hk := reconnect_some uid qn reg.u u1 hr
    simp only
    rw [activeNames_eq_of_slotKeys _ _ hk, slotKeys_length _ _ hk]
    exact h
  | none =>
    simp only
    split
    · exact h
    · cases hc : claim uid qn reg.u with
      | some u1 =>
        obtain ⟨c1, c2⟩ := claim_some uid qn reg.u u1 hc
        simp only
        rw [c1, c2.length_eq, List.length_cons, h.2]
        exact ⟨h.1, by push_cast; rfl⟩
      | none => exact h

theorem clean_count (reg : ShReg) (uid : Str)
    (h : reg.u.length = MaxUsers ∧ reg.cnt = ((activeNames reg.u).length : Int)) :
    (clean reg uid).u.length = MaxUsers ∧
      (clean reg uid).cnt = ((activeNames (clean reg uid).u).length : Int) := by
  unfold clean
  cases hr : release uid reg.u with
  | some u1 =>
    obtain ⟨c1, c2⟩ := release_some uid reg.u u1 hr
    simp only
    have hl := c2.length_eq
    rw [List.length_cons] at hl
    rw [c1, h.2, ← hl]
    exact ⟨h.1, by push_cast; omega⟩
  | none => exact h

theorem regUser_nodup (reg : ShReg) (uid qn : Str) (hfit : nameFits uid)
    (h : (activeNames reg.u).Nodup) : (activeNames (regUser reg uid qn).2.u).Nodup := by
  unfold regUser
  cases hr : reconnect uid qn reg.u with
  | some u1 =>
    simp only
    rw [activeNames_eq_of_slotKeys _ _ (reconnect_some uid qn reg.u u1 hr)]
    exact h
  | none =>
    simp only
    split
    · exact h
    · cases hc : claim uid qn reg.u with
      | some u1 =>
        obtain ⟨_, c2⟩ := claim_some uid qn reg.u u1 hc
        simp only
        rw [c2.nodup_iff, cstr_eq_self 31 uid hfit.1 hfit.2, List.nodup_cons]
        exact ⟨(reconnect_none_iff uid qn reg.u).mp hr, h⟩
      | none => exact h

theorem clean_nodup (reg : ShReg) (uid : Str) (h : (activeNames reg.u).Nodup) :
    (activeNames (clean reg uid).u).Nodup := by
  unfold clean
  cases hr : release uid reg.u with
  | some u1 =>
    obtain ⟨_, c2⟩ := release_some uid reg.u u1 hr
    simp only
    exact (List.nodup_cons.mp (c2.nodup_iff.mpr h)).2
  | none => exact h

theorem reachable_count (P : Str → Prop) (reg : ShReg) (h : ReachableBy P reg) :
    reg.u.length = MaxUsers ∧ reg.cnt = ((activeNames reg.u).length : Int) := by
  induction h with
  | init => exact ⟨rfl, rfl⟩
  | join reg uid qn _ _ ih => exact regUser_count reg uid qn ih
  | leave reg uid _ ih => exact clean_count reg uid ih

theorem reachable_nodup (reg : ShReg) (h : ReachableBy nameFits reg) :
    (activeNames reg.u).Nodup := by
  induction h with
  | init => exact List.nodup_nil
  | join reg uid qn _ hfit ih => exact regUser_nodup reg uid qn hfit ih
  | leave reg uid _ ih => exact clean_nodup reg uid ih

theorem regUser_reconnect (reg : ShReg) (uid qn : Str) (h : uid ∈ activeUsers reg) :
    (regUser reg uid qn).1 = true ∧ (regUser reg uid qn).2.cnt = reg.cnt ∧
      slotKeys (regUser reg uid qn).2.u = slotKeys reg.u := by
  unfold regUser
  cases hr : reconnect uid qn reg.u with
  | some u1 => exact ⟨rfl, rfl, reconnect_some uid qn reg.u u1 hr⟩
  | none => exact absurd h ((reconnect_none_iff uid qn reg.u).mp hr)

/-- C10, as amended: in every registry state reached from the empty registry by calls of
`regUser` and `clean` the count is the number of slots whose active flag is set; when every
name given to `regUser` is at most 31 bytes long and free of NUL bytes, no name is held by
more than one active slot; and in any registry state a `regUser` with a name that an active
slot holds succeeds, leaves the count as it is and leaves the name and the active flag of
every slot as they are. -/
theorem registry_invariant :
    (∀ reg : ShReg, ReachableBy (fun _ => True) reg → reg.cnt = (activeCount reg : Int)) ∧
    (∀ reg : ShReg, ReachableBy nameFits reg →
      reg.cnt = (activeCount reg : Int) ∧ (activeUsers reg).Nodup) ∧
    (∀ (reg : ShReg) (uid qn : Str), uid ∈ activeUsers reg →
      (regUser reg uid qn).1 = true ∧ (regUser reg uid qn).2.cnt = reg.cnt ∧
        slotKeys (regUser reg uid qn).2.u = slotKeys reg.u) := by
  refine ⟨fun reg h => ?_, fun reg h => ⟨?_, reachable_nodup reg h⟩, regUser_reconnect⟩
  · rw [activeCount_eq]
    exact (reachable_count _ reg h).2
  · rw [activeCount_eq]
    exact (reachable_count _ reg h).2

/-- C10, witness: "alice" and "bob" join, then "alice" joins again. -/
theorem registry_invariant_witness :
    (regUser (regUser (regUser emptyReg "alice".toList "/queue_alice".toList).2
        "bob".toList "/queue_bob".toList).2 "alice".toList "/queue_alice".toList).2.cnt = 2 ∧
    activeUsers (regUser (regUser (regUser emptyReg "alice".toList "/queue_alice".toList).2
        "bob".toList "/queue_bob".toList).2 "alice".toList "/queue_alice".toList).2
      = ["alice".toList, "bob".toList] := by
  have h := (registry_invariant.2.2
    (regUser (regUser emptyReg "alice".toList "/queue_alice".toList).2
      "bob".toList "/queue_bob".toList).2 "alice".toList "/queue_alice".toList (by decide)).2.1
  exact ⟨h.trans (by decide), by decide⟩

/-- C10, counterexample: a peer whose name has 32 bytes joins the empty registry twice. The
slot stores the first 31 bytes, the reconnect test compares them with all 32, so the second
join claims a second slot: two active slots hold the same name and the count is 2. -/
theorem registry_long_name_twice :
    ReachableBy (fun _ => True)
      (regUser (regUser emptyReg longName "/queue_a".toList).2 longName "/queue_a".toList).2 ∧
    activeUsers
        (regUser (regUser emptyReg longName "/queue_a".toList).2 longName "/queue_a".toList).2
      = [List.replicate 31 'a', List.replicate 31 'a'] ∧
    ¬ (activeUsers
        (regUser (regUser emptyReg longName "/queue_a".toList).2 longName
          "/queue_a".toList).2).Nodup ∧
    (regUser (regUser emptyReg longName "/queue_a".toList).2 longName "/queue_a".toList).2.cnt
      = 2 := by
  refine ⟨?_, ?_, ?_, ?_⟩
  · exact ReachableBy.join _ _ _ (ReachableBy.join _ _ _ ReachableBy.init trivial) trivial
  · decide
  · decide
  · decide


/-! ## The fingerprint -/

theorem digitChar_facts :
    ∀ k < 10, Nat.digitChar k ≠ '|' ∧ Nat.digitChar k ≠ '-' ∧ (Nat.digitChar k).toNat - 48 = k := by
  decide

theorem digitsVal_append_single (xs : Str) (c : Char) :
    digitsVal (xs ++ [c]) = 10 * digitsVal xs + (c.toNat - 48) := by
  unfold digitsVal
  rw [List.foldl_append]
  rfl

theorem toDigitsCore_spec : ∀ (fuel n : Nat) (ds : Str), n < fuel →
    ∃ xs : Str, Nat.toDigitsCore 10 fuel n ds = xs ++ ds ∧ xs ≠ [] ∧
      (∀ c ∈ xs, c ≠ '|' ∧ c ≠ '-') ∧ digitsVal xs = n
  | 0, n, ds, h => absurd h (Nat.not_lt_zero n)
  | fuel + 1, n, ds, h => by
    obtain ⟨d1, d2, d3⟩ := digitChar_facts (n % 10) (Nat.mod_lt n (by decide))
    simp only [Nat.toDigitsCore]
    split
    · rename_i h0
      refine ⟨[Nat.digitChar (n % 10)], rfl, by simp, ?_, ?_⟩
      · intro c hc
        rw [List.mem_singleton] at hc
        rw [hc]
        exact ⟨d1, d2⟩
      · have e := digitsVal_append_single [] (Nat.digitChar (n % 10))
        rw [List.nil_append] at e
        rw [e, d3]
        show 10 * 0 + n % 10 = n
        omega
    · rename_i h0
      obtain ⟨xs, e1, _, e3, e4⟩ := toDigitsCore_spec fuel (n / 10)
        (Nat.digitChar (n % 10) :: ds) (by omega)
      refine ⟨xs ++ [Nat.digitChar (n % 10)], ?_, by simp, ?_, ?_⟩
      · rw [e1, List.append_assoc]
        rfl
      · intro c hc
        rcases List.mem_append.mp hc with hc | hc
        · exact e3 c hc
        · rw [List.mem_singleton] at hc
          rw [hc]
          exact ⟨d1, d2⟩
      · rw [digitsVal_append_single, e4, d3]
        omega

theorem toDigits_spec (n : Nat) :
    Nat.toDigits 10 n ≠ [] ∧ (∀ c ∈ Nat.toDigits 10 n, c ≠ '|' ∧ c ≠ '-') ∧
      digitsVal (Nat.toDigits 10 n) = n := by
  obtain ⟨xs, e1, e2, e3, e4⟩ := toDigitsCore_spec (n + 1) n [] (Nat.lt_succ_self n)
  rw [List.append_nil] at e1
  unfold Nat.toDigits
  rw [e1]
  exact ⟨e2, e3, e4⟩

theorem showInt_no_bar (n : Int) : '|' ∉ showInt n := by
  unfold showInt
  split
  · intro h
    rcases List.mem_cons.mp h with h | h
    · exact absurd h (by decide)
    · exact ((toDigits_spec _).2.1 _ h).1 rfl
  · intro h
    exact ((toDigits_spec _).2.1 _ h).1 rfl

theorem showInt_inj (a b : Int) (h : showInt a = showInt b) : a = b := by
  unfold showInt at h
  by_cases ha : a < 0
  · by_cases hb : b < 0
    · rw [if_pos ha, if_pos hb] at h
      have e := congrArg digitsVal (List.cons.inj h).2
      rw [(toDigits_spec _).2.2, (toDigits_spec _).2.2] at e
      omega
    · rw [if_pos ha, if_neg hb] at h
      obtain ⟨n1, n2, _⟩ := toDigits_spec b.toNat
      rw [← h] at n2
      exact absurd rfl (n2 '-' (List.mem_cons_self _ _)).2
  · by_cases hb : b < 0
    · rw [if_neg ha, if_pos hb] at h
      obtain ⟨n1, n2, _⟩ := toDigits_spec a.toNat
      rw [h] at n2
      exact absurd rfl (n2 '-' (List.mem_cons_self _ _)).2
    · rw [if_neg ha, if_neg hb] at h
      have e := congrArg digitsVal h
      rw [(toDigits_spec _).2.2, (toDigits_spec _).2.2] at e
      omega

theorem append_bar_inj : ∀ (x y r r1 : Str), '|' ∉ x → '|' ∉ y →
    x ++ '|' :: r = y ++ '|' :: r1 → x = y ∧ r = r1
  | [], [], r, r1, _, _, h => ⟨rfl, (List.cons.inj h).2⟩
  | [], c :: y, r, r1, _, hy, h => by
    have := (List.cons.inj h).1
    exact absurd (List.mem_cons_self _ _) (this ▸ hy)
  | c :: x, [], r, r1, hx, _, h => by
    have := (List.cons.inj h).1
    exact absurd (List.mem_cons_self _ _) (this ▸ hx)
  | c :: x, d :: y, r, r1, hx, hy, h => by
    obtain ⟨h1, h2⟩ := List.cons.inj h
    obtain ⟨i1, i2⟩ := append_bar_inj x y r r1
      (fun hh => hx (List.mem_cons_of_mem _ hh)) (fun hh => hy (List.mem_cons_of_mem _ hh)) h2
    exact ⟨by rw [h1, i1], i2⟩

theorem code_inj (s t : OpType) (h : s.code = t.code) : s = t := by
  cases s <;> cases t <;> first | rfl | exact absurd h (by decide)

/-- C7, as amended: two operations whose author and old text contain no `|` have the same
fingerprint if and only if they agree on all nine fields author, sequence, timestamp, kind,
line, c0, c1, old text and new text. -/
theorem opid_eq_iff (a b : UpOp) (ha : '|' ∉ a.uid ∧ '|' ∉ a.oldC)
    (hb : '|' ∉ b.uid ∧ '|' ∉ b.oldC) :
    opid a = opid b ↔
      (a.uid = b.uid ∧ a.seq = b.seq ∧ a.ts = b.ts ∧ a.t = b.t ∧ a.ln = b.ln ∧ a.c0 = b.c0 ∧
        a.c1 = b.c1 ∧ a.oldC = b.oldC ∧ a.newC = b.newC) := by
  constructor
  · intro h
    simp only [opid, List.append_assoc, List.singleton_append] at h
    obtain ⟨e1, h⟩ := append_bar_inj _ _ _ _ ha.1 hb.1 h
    obtain ⟨e2, h⟩ := append_bar_inj _ _ _ _ (showInt_no_bar _) (showInt_no_bar _) h
    obtain ⟨e3, h⟩ := append_bar_inj _ _ _ _ (showInt_no_bar _) (showInt_no_bar _) h
    obtain ⟨e4, h⟩ := append_bar_inj _ _ _ _ (showInt_no_bar _) (showInt_no_bar _) h
    obtain ⟨e5, h⟩ := append_bar_inj _ _ _ _ (showInt_no_bar _) (showInt_no_bar _) h
    obtain ⟨e6, h⟩ := append_bar_inj _ _ _ _ (showInt_no_bar _) (showInt_no_bar _) h
    obtain ⟨e7, h⟩ := append_bar_inj _ _ _ _ (showInt_no_bar _) (showInt_no_bar _) h
    obtain ⟨e8, h⟩ := append_bar_inj _ _ _ _ ha.2 hb.2 h
    have f5 := showInt_inj _ _ e5
    have f6 := showInt_inj _ _ e6
    have f7 := showInt_inj _ _ e7
    exact ⟨e1, showInt_inj _ _ e2, showInt_inj _ _ e3, code_inj _ _ (showInt_inj _ _ e4),
      by omega, by omega, by omega, e8, h⟩
  · rintro ⟨e1, e2, e3, e4, e5, e6, e7, e8, e9⟩
    unfold opid
    rw [e1, e2, e3, e4, e5, e6, e7, e8, e9]

/-- C7, witness: the two operations of scenario 3 differ in author, sequence and new text,
and their fingerprints differ. -/
theorem opid_eq_iff_witness :
    opid { t := OpType.REP, ln := 0, c0 := 0, c1 := 1, oldC := "A".toList, newC := "B".toList,
           uid := "alice".toList, ts := 200, seq := 1 }
      ≠ opid { t := OpType.REP, ln := 0, c0 := 0, c1 := 1, oldC := "A".toList,
               newC := "C".toList, uid := "bob".toList, ts := 200, seq := 2 } :=
  fun h => absurd ((opid_eq_iff _ _ (by decide) (by decide)).mp h).1 (by decide)

/-- C7, counterexample: two REPLACE operations with the same author, sequence, timestamp,
line and columns, one replacing "a|b" by "c" and the other "a" by "b|c", differ in old and
new text and have the same fingerprint "alice|1|200|2|0|0|3|a|b|c". -/
theorem opid_collision :
    opid barInOld = opid barInNew ∧ barInOld.oldC ≠ barInNew.oldC ∧
      barInOld.newC ≠ barInNew.newC := by
  decide


/-! ## The full registry -/

theorem regUser_full (reg : ShReg) (uid qn : Str) (hcnt : reg.cnt ≥ (MaxUsers : Int))
    (hnew : uid ∉ activeNames reg.u) : regUser reg uid qn = (false, reg) := by
  unfold regUser
  rw [(reconnect_none_iff uid qn reg.u).mpr hnew]
  simp only
  rw [if_pos hcnt]

theorem regUser_new (reg : ShReg) (uid qn : Str) (hlen : reg.u.length = MaxUsers)
    (hcnt : reg.cnt = ((activeNames reg.u).length : Int))
    (hroom : (activeNames reg.u).length < MaxUsers) (hnew : uid ∉ activeNames reg.u) :
    (regUser reg uid qn).1 = true ∧
      (activeNames (regUser reg uid qn).2.u).Perm (cstr 31 uid :: activeNames reg.u) := by
  unfold regUser
  rw [(reconnect_none_iff uid qn reg.u).mpr hnew]
  simp only
  have hlt : ¬ reg.cnt ≥ (MaxUsers : Int) := by
    rw [hcnt]
    omega
  rw [if_neg hlt]
  cases hc : claim uid qn reg.u with
  | none =>
    have := (claim_none_iff uid qn reg.u).mp hc
    omega
  | some u1 => exact ⟨rfl, (claim_some uid qn reg.u u1 hc).2⟩

theorem joinAll_cons (reg : ShReg) (p : Str × Str) (ps : List (Str × Str)) :
    joinAll reg (p :: ps) = joinAll (regUser reg p.1 p.2).2 ps := rfl

theorem joinAll_spec : ∀ (joins : List (Str × Str)) (reg : ShReg),
    reg.u.length = MaxUsers → reg.cnt = ((activeNames reg.u).length : Int) →
    (∀ p ∈ joins, nameFits p.1) → (joins.map Prod.fst).Nodup →
    (∀ p ∈ joins, p.1 ∉ activeNames reg.u) →
    (activeNames reg.u).length + joins.length ≤ MaxUsers →
    (joinAll reg joins).u.length = MaxUsers ∧
      (joinAll reg joins).cnt = ((activeNames (joinAll reg joins).u).length : Int) ∧
      (activeNames (joinAll reg joins).u).Perm (activeNames reg.u ++ joins.map Prod.fst)
  | [], reg, hlen, hcnt, _, _, _, _ => by
    refine ⟨hlen, hcnt, ?_⟩
    rw [List.map_nil, List.append_nil]
    exact List.Perm.refl _
  | p :: ps, reg, hlen, hcnt, hfit, hnd, hnew, hroom => by
    rw [joinAll_cons]
    rw [List.length_cons] at hroom
    rw [List.map_cons, List.nodup_cons] at hnd
    obtain ⟨_, hperm⟩ := regUser_new reg p.1 p.2 hlen hcnt (by omega)
      (hnew p (List.mem_cons_self _ _))
    have hp := hfit p (List.mem_cons_self _ _)
    rw [cstr_eq_self 31 p.1 hp.1 hp.2] at hperm
    obtain ⟨c1, c2⟩ := regUser_count reg p.1 p.2 ⟨hlen, hcnt⟩
    have hl := hperm.length_eq
    rw [List.length_cons] at hl
    obtain ⟨i1, i2, i3⟩ := joinAll_spec ps (regUser reg p.1 p.2).2 c1 c2
      (fun q hq => hfit q (List.mem_cons_of_mem _ hq)) hnd.2
      (fun q hq hmem => by
        rcases List.mem_cons.mp (hperm.subset hmem) with h | h
        · exact hnd.1 (h ▸ List.mem_map_of_mem Prod.fst hq)
        · exact hnew q (List.mem_cons_of_mem _ hq) h)
      (by omega)
    refine ⟨i1, i2, i3.trans ?_⟩
    rw [List.map_cons]
    exact (List.Perm.append_right _ hperm).trans List.perm_middle.symm

theorem activeNames_emptyReg : activeNames emptyReg.u = [] := rfl

/-- C11, as amended: when `MaxUsers` (5) peers with distinct names, each at most 31 bytes
long and free of NUL bytes, have joined the empty registry, the count is 5, the active
slots hold exactly their names, and a `regUser` by a further peer whose name no active slot
holds returns false and leaves the whole registry unchanged: the count and the name,
mailbox name and active flag of every slot. -/
theorem registry_full (joins : List (Str × Str)) (uid qn : Str)
    (hlen : joins.length = MaxUsers) (hnd : (joins.map Prod.fst).Nodup)
    (hfit : ∀ p ∈ joins, nameFits p.1)
    (hnew : uid ∉ activeUsers (joinAll emptyReg joins)) :
    (joinAll emptyReg joins).cnt = (MaxUsers : Int) ∧
    (activeUsers (joinAll emptyReg joins)).Perm (joins.map Prod.fst) ∧
    regUser (joinAll emptyReg joins) uid qn = (false, joinAll emptyReg joins) := by
  obtain ⟨_, h2, h3⟩ := joinAll_spec joins emptyReg rfl rfl hfit hnd
    (fun p _ h => by rw [activeNames_emptyReg] at h; exact absurd h (List.not_mem_nil _))
    (by rw [activeNames_emptyReg, hlen]; exact Nat.le_of_eq (Nat.zero_add _))
  rw [activeNames_emptyReg, List.nil_append] at h3
  have hc : (joinAll emptyReg joins).cnt = (MaxUsers : Int) := by
    rw [h2, h3.length_eq, List.length_map, hlen]
  exact ⟨hc, h3, regUser_full _ uid qn (by rw [hc]) hnew⟩

/-- C11, witness: "alice", "bob", "carol", "dave" and "erin" have joined; "frank" is
refused and the registry stays as it was. -/
theorem registry_full_witness :
    regUser
        (joinAll emptyReg
          [("alice".toList, "/queue_alice".toList), ("bob".toList, "/queue_bob".toList),
           ("carol".toList, "/queue_carol".toList), ("dave".toList, "/queue_dave".toList),
           ("erin".toList, "/queue_erin".toList)])
        "frank".toList "/queue_frank".toList
      = (false,
          joinAll emptyReg
            [("alice".toList, "/queue_alice".toList), ("bob".toList, "/queue_bob".toList),
             ("carol".toList, "/queue_carol".toList), ("dave".toList, "/queue_dave".toList),
             ("erin".toList, "/queue_erin".toList)]) :=
  (registry_full
    [("alice".toList, "/queue_alice".toList), ("bob".toList, "/queue_bob".toList),
     ("carol".toList, "/queue_carol".toList), ("dave".toList, "/queue_dave".toList),
     ("erin".toList, "/queue_erin".toList)]
    "frank".toList "/queue_frank".toList (by decide) (by decide) (by decide) (by decide)).2.2

/-- C11, counterexample: five peers with distinct names join the empty registry, the first
name having 32 bytes and the second being its first 31 bytes. The slot of the first peer
stores 31 bytes, so the second join is taken for a reconnect and claims no slot: the count
is 4 after the five joins, and a sixth peer "e", whose name no slot holds, is admitted. -/
theorem registry_not_full_after_five :
    fiveJoins.length = MaxUsers ∧ (fiveJoins.map Prod.fst).Nodup ∧
    "e".toList ∉ activeUsers (joinAll emptyReg fiveJoins) ∧
    (joinAll emptyReg fiveJoins).cnt = 4 ∧
    (regUser (joinAll emptyReg fiveJoins) "e".toList "/queue_e".toList).1 = true ∧
    (regUser (joinAll emptyReg fiveJoins) "e".toList "/queue_e".toList).2.cnt = 5 := by
  refine ⟨?_, ?_, ?_, ?_, ?_, ?_⟩
  · decide
  · decide
  · decide
  · decide
  · decide
  · decide

end AtomEdit
